import Mathlib

/-!
Verification development for the consensus-and-state core of the
lasagna-blockchain node (`src/ledger.rs`, `src/block.rs`, `src/blockchain.rs`,
`src/snapshot.rs`, `src/draw.rs`).

Modelling conventions:

* `u64` balances and 256-bit draw values are modelled as `Nat`; `i64` depths
  are modelled as `Int`.  Where Rust would panic on `u64` underflow (debug
  builds) the model returns `none`.
* Rust `HashMap` and `HashSet` fields are modelled as association lists and
  element lists; the operations mirror the Rust operations and the
  key-uniqueness that a `HashMap` guarantees by construction appears as an
  explicit `Nodup` hypothesis where a proof needs it.
* A returned `none` marks a panic or a diverging loop (an `unwrap`, an
  out-of-bounds index, or fuel exhaustion of a loop); `some (st, r)` carries
  the Rust return value `r` together with the state after the call, because
  the Rust methods mutate `self` in place and keep those mutations on an
  `Err` return.
* Ed25519 signing and SHA-256 hashing live outside the translated core: hash
  values are carried as data exactly as the Rust structs carry them, and the
  outcome of signature verification is an oracle (`SigOracle`) supplied as an
  argument.  The wall-clock read `calculate_timeslot(START_TIME)` is likewise
  supplied as the argument `now`.
-/

namespace Lasagna

abbrev PublicKey := Nat
abbrev Sha256Hash := Nat
abbrev MiniLas := Nat
abbrev Timeslot := Nat

/-- Result type mirroring `anyhow::Result`: `ok` or a typed error message. -/
inductive Res (α : Type) where
  | ok (a : α)
  | err (e : String)
deriving DecidableEq, Repr

/-! ## Association-list operations standing for Rust `HashMap` / `HashSet` -/

/-- Lookup of the (first) binding of `k`, mirroring `HashMap::get`. -/
def alook {α : Type} (m : List (Nat × α)) (k : Nat) : Option α :=
  match m with
  | [] => none
  | (k', v) :: rest => if k' = k then some v else alook rest k

/-- Mirror of `HashMap::contains_key`. -/
def acontains {α : Type} (m : List (Nat × α)) (k : Nat) : Bool :=
  (alook m k).isSome

/-- In-place update of every binding of `k` (a `HashMap` has exactly one). -/
def aupd {α : Type} (m : List (Nat × α)) (k : Nat) (f : α → α) : List (Nat × α) :=
  m.map (fun p => if p.1 = k then (p.1, f p.2) else p)

/-- In-place overwrite of the value bound to `k`, mirroring `*get_mut(k) = v`. -/
def aset {α : Type} (m : List (Nat × α)) (k : Nat) (v : α) : List (Nat × α) :=
  aupd m k (fun _ => v)

/-- Mirror of `HashMap::insert` (overwrite if present, append if absent). -/
def ainsert {α : Type} (m : List (Nat × α)) (k : Nat) (v : α) : List (Nat × α) :=
  if acontains m k then aset m k v else m ++ [(k, v)]

/-- Mirror of `HashMap::remove`. -/
def aerase {α : Type} (m : List (Nat × α)) (k : Nat) : List (Nat × α) :=
  m.filter (fun p => if p.1 = k then false else true)

/-- Mirror of `HashSet::insert` on a list-represented set. -/
def sinsert {α : Type} [DecidableEq α] (s : List α) (x : α) : List α :=
  if x ∈ s then s else s ++ [x]

/-- Mirror of `HashSet::remove` on a list-represented set. -/
def sremove {α : Type} [DecidableEq α] (s : List α) (x : α) : List α :=
  s.filter (fun y => if y = x then false else true)

/-! ## Constants (`src/blockchain.rs`, `src/ledger.rs`, `src/draw.rs`) -/

def BLOCK_REWARD : Nat := 3000000
def ROOT_AMOUNT : Nat := 100000000
def TRANSACTION_FEE : Nat := 10000
def MINIMUM_STAKE_AMOUNT : Nat := 10000000
def SEED_AGE : Int := 50

/-! ## Transaction data (`src/instruction.rs` and the fields of
`TransactionMessage` / `Transaction` that `src/ledger.rs` reads:
`message.accounts`, `message.instructions`, `hash`). -/

structure CompiledInstruction where
  account_indices : List Nat
  amount : Nat
deriving DecidableEq, Repr

structure TransactionMessage where
  accounts : List Nat
  instructions : List CompiledInstruction
deriving DecidableEq, Repr

structure Transaction where
  hash : Nat
  message : TransactionMessage
deriving DecidableEq, Repr

/-! ## Block-side data (`src/util.rs`, `src/draw.rs`, `src/block.rs`) -/

structure BlockPtr where
  hash : Nat
  depth : Int
deriving DecidableEq, Repr

structure Seed where
  block_ptr : BlockPtr
deriving DecidableEq, Repr

structure Draw where
  value : Nat
  timeslot : Nat
  signature : Nat
  signed_by : Nat
  seed : Seed
deriving DecidableEq, Repr

structure Block where
  timeslot : Nat
  prev_hash : Nat
  depth : Int
  transactions : List Transaction
  draw : Draw
  signature : Nat
  hash : Nat
deriving DecidableEq, Repr

def Block.ptr (b : Block) : BlockPtr := ⟨b.hash, b.depth⟩

/-- Outcome of the Ed25519 verifications, abstracted: `blockSig b` is the
outcome of `Block::verify_signature(b)` (content-hash recomputation plus
signature check) and `txSig t` is the outcome of the signature checks on a
transaction. -/
structure SigOracle where
  blockSig : Block → Bool
  txSig : Transaction → Bool

/-! ## Ledger (`src/ledger.rs`) -/

structure Ledger where
  map : List (Nat × Nat)
  previous_transactions : List Nat
  published_accounts : List (Nat × Int)
  root_accounts : List Nat
deriving DecidableEq, Repr

namespace Ledger

/-- `Ledger::new`. -/
def new (root_accounts : List Nat) : Ledger :=
  { map := []
    previous_transactions := []
    published_accounts := root_accounts.map (fun ra => (ra, 0))
    root_accounts := root_accounts }

/-- `Ledger::add_acount_if_absent` (source spelling kept). -/
def add_acount_if_absent (l : Ledger) (account : Nat) : Ledger :=
  if acontains l.map account then l
  else { l with map := l.map ++ [(account, 0)] }

/-- `Ledger::delete_account`. -/
def delete_account (l : Ledger) (account : Nat) : Ledger :=
  { l with published_accounts := aerase l.published_accounts account
           map := aerase l.map account }

/-- `Ledger::get_balance`. -/
def get_balance (l : Ledger) (account : Nat) : Nat :=
  (alook l.map account).getD 0

/-- `Ledger::reward_winner`. -/
def reward_winner (l : Ledger) (winner : Nat) (amount : Nat) : Ledger :=
  if acontains l.map winner then { l with map := aupd l.map winner (fun m => m + amount) }
  else { l with map := l.map ++ [(winner, amount)] }

/-- `Ledger::rollback_reward`; `none` when the `u64` subtraction would
underflow (a debug-build panic in Rust). -/
def rollback_reward (l : Ledger) (winner : Nat) (amount : Nat) : Option Ledger :=
  let l := l.add_acount_if_absent winner
  match alook l.map winner with
  | none => none
  | some balance =>
      if balance < amount then none
      else some { l with map := aset l.map winner (balance - amount) }

/-- `Ledger::can_stake` (the two-argument form of `src/ledger.rs`). -/
def can_stake (l : Ledger) (account : Nat) (at_depth : Int) : Bool :=
  if account ∈ l.root_accounts then true
  else
    match alook l.published_accounts account with
    | none => false
    | some publ_depth => decide (at_depth - publ_depth > 2 * SEED_AGE)

/-- Modelled from the spec: the depth-less `can_stake(account)` called by
`is_winner` in `src/blockchain.rs` is absent from the sources (only its
caller is present); per the spec it is true iff the account is a root
account or is in `published_accounts`. -/
def can_stake_depthless (l : Ledger) (account : Nat) : Bool :=
  account ∈ l.root_accounts || acontains l.published_accounts account

/-- `Ledger::get_total_money_in_ledger`. -/
def get_total_money_in_ledger (l : Ledger) : Nat :=
  (l.map.map (fun p => p.2)).sum

end Ledger

/-- Modelled from the spec: `Transaction::validate`, called by
`Ledger::is_transaction_valid`, is absent from the sources.  Per the spec it
checks that every instruction names exactly two accounts and transfers at
least `TRANSACTION_FEE`, that a payer (accounts index 0) is present, and it
verifies the signatures; the signature outcome is the `txSig` oracle. -/
def Transaction.validate (oc : SigOracle) (t : Transaction) : Res Unit :=
  if t.message.accounts.length = 0 then
    .err "MalformedTransaction: transaction has no payer account"
  else if ¬ (t.message.instructions.all
      (fun ix => ix.account_indices.length = 2 && decide (TRANSACTION_FEE ≤ ix.amount))) then
    .err "MalformedTransaction: bad instruction arity or amount below fee"
  else if ¬ oc.txSig t then
    .err "BadSignature: transaction signature verification failed"
  else .ok ()

namespace Ledger

/-- `Ledger::is_transaction_valid`. -/
def is_transaction_valid (oc : SigOracle) (l : Ledger) (t : Transaction) : Res Unit :=
  match t.validate oc with
  | .err e => .err e
  | .ok () =>
      if t.hash ∈ l.previous_transactions then .err "Transaction was executed previously"
      else .ok ()

end Ledger

/-! ## Snapshot (`src/snapshot.rs`) -/

structure Snapshot where
  balances : List (Nat × Option Nat)
deriving DecidableEq, Repr

/-- `Snapshot::snapshot_balance` (`entry(key).or_insert_with(state.get)`). -/
def Snapshot.snapshot_balance (s : Snapshot) (key : Nat)
    (state : List (Nat × Nat)) : Snapshot :=
  if acontains s.balances key then s
  else { balances := s.balances ++ [(key, alook state key)] }

/-- The snapshot loop at the top of `Ledger::process_transaction`. -/
def takeSnapshot (accounts : List Nat) (state : List (Nat × Nat)) : Snapshot :=
  accounts.foldl (fun s pk => s.snapshot_balance pk state) ⟨[]⟩

namespace Ledger

/-- The restore loop of `Ledger::rollback_to_snapshot`. -/
def restoreSnapshot (l : Ledger) : List (Nat × Option Nat) → Option Ledger
  | [] => some l
  | (pk, amount) :: rest =>
      match amount with
      | some a =>
          if acontains l.map pk then restoreSnapshot { l with map := aset l.map pk a } rest
          else none
      | none => restoreSnapshot (l.delete_account pk) rest

/-- `Ledger::rollback_to_snapshot`; `none` when a `Some` entry no longer has
a live account (`get_mut(pk).unwrap()`). -/
def rollback_to_snapshot (l : Ledger) (snapshot : Snapshot) (t : Transaction) :
    Option Ledger :=
  match restoreSnapshot l snapshot.balances with
  | none => none
  | some l =>
      some { l with previous_transactions := sremove l.previous_transactions t.hash }

/-- `Ledger::process_instruction`; the error cases keep the mutations made so
far, exactly as the Rust method does; `none` marks the `unwrap` panics on a
malformed instruction. -/
def process_instruction (l : Ledger) (instruction : CompiledInstruction)
    (message : TransactionMessage) (depth : Int) : Option (Ledger × Res Unit) :=
  match instruction.account_indices.get? 0, instruction.account_indices.get? 1 with
  | some from_idx, some to_idx =>
      match message.accounts.get? from_idx with
      | none => some (l, .err "Failed to get sending public key during instruction processing")
      | some fromPk =>
          match message.accounts.get? to_idx with
          | none => some (l, .err "Failed to get receiving public key during instruction processing")
          | some toPk =>
              let l := (l.add_acount_if_absent fromPk).add_acount_if_absent toPk
              match alook l.map fromPk with
              | none => none
              | some from_balance =>
                  if from_balance < instruction.amount then
                    some (l, .err "The sender does not have enoug MiniLas to perform the instruction")
                  else
                    let l := { l with map := aset l.map fromPk (from_balance - instruction.amount) }
                    match alook l.map toPk with
                    | none => none
                    | some to_balance =>
                        let l := { l with map := aset l.map toPk (to_balance + instruction.amount) }
                        let l :=
                          if ¬ acontains l.published_accounts toPk ∧
                              MINIMUM_STAKE_AMOUNT ≤ to_balance + instruction.amount then
                            { l with published_accounts := l.published_accounts ++ [(toPk, depth)] }
                          else l
                        some (l, .ok ())
  | _, _ => none

/-- The instruction loop of `Ledger::process_transaction`: applies the
instructions in order and stops at the first error. -/
def process_instructions (l : Ledger) (ixs : List CompiledInstruction)
    (message : TransactionMessage) (depth : Int) : Option (Ledger × Res Unit) :=
  match ixs with
  | [] => some (l, .ok ())
  | ix :: rest =>
      match l.process_instruction ix message depth with
      | none => none
      | some (l', .err e) => some (l', .err e)
      | some (l', .ok ()) => process_instructions l' rest message depth

/-- `Ledger::process_transaction`. -/
def process_transaction (oc : SigOracle) (l : Ledger) (t : Transaction) (depth : Int) :
    Option (Ledger × Res Unit) :=
  match l.is_transaction_valid oc t with
  | .err e => some (l, .err e)
  | .ok () =>
      let snapshot := takeSnapshot t.message.accounts l.map
      match t.message.accounts.get? 0 with
      | none => none
      | some payer =>
          let l := l.add_acount_if_absent payer
          match alook l.map payer with
          | none => none
          | some payer_balance =>
              if ¬ (payer_balance > TRANSACTION_FEE) then
                some (l, .err "Payer does not have enough LAS in account to pay transaction fee")
              else
                let l := { l with map := aset l.map payer (payer_balance - TRANSACTION_FEE) }
                if t.hash ∈ l.previous_transactions then
                  some (l, .err "Transaction was executed previously")
                else
                  let l := { l with previous_transactions := l.previous_transactions ++ [t.hash] }
                  match process_instructions l t.message.instructions t.message depth with
                  | none => none
                  | some (l', .ok ()) => some (l', .ok ())
                  | some (l', .err e) =>
                      match l'.rollback_to_snapshot snapshot t with
                      | none => none
                      | some l'' => some (l'', .err e)

/-- `Ledger::rollback_instruction`; `none` marks the `unwrap` panics and the
`u64` underflow of `*to_balance -= amount`. -/
def rollback_instruction (l : Ledger) (instruction : CompiledInstruction)
    (message : TransactionMessage) : Option Ledger :=
  match instruction.account_indices.get? 0, instruction.account_indices.get? 1 with
  | some from_idx, some to_idx =>
      match message.accounts.get? from_idx, message.accounts.get? to_idx with
      | some fromPk, some toPk =>
          match alook l.map fromPk with
          | none => none
          | some from_balance =>
              let l := { l with map := aset l.map fromPk (from_balance + instruction.amount) }
              match alook l.map toPk with
              | none => none
              | some to_balance =>
                  if to_balance < instruction.amount then none
                  else some { l with map := aset l.map toPk (to_balance - instruction.amount) }
      | _, _ => none
  | _, _ => none

/-- The instruction loop of `Ledger::rollback_transaction`. -/
def rollback_instructions (l : Ledger) (message : TransactionMessage) :
    List CompiledInstruction → Option Ledger
  | [] => some l
  | ix :: rest =>
      match l.rollback_instruction ix message with
      | none => none
      | some l' => rollback_instructions l' message rest

/-- `Ledger::rollback_transaction` (instructions are iterated in source
order, then the hash is removed, then accounts published at exactly this
depth are unpublished). -/
def rollback_transaction (l : Ledger) (t : Transaction) (depth : Int) : Option Ledger :=
  match rollback_instructions l t.message t.message.instructions with
  | none => none
  | some l =>
      let l := { l with previous_transactions := sremove l.previous_transactions t.hash }
      some (t.message.accounts.foldl
        (fun l pk =>
          match alook l.published_accounts pk with
          | some published_at =>
              if published_at = depth then
                { l with published_accounts := aerase l.published_accounts pk }
              else l
          | none => l)
        l)

end Ledger

/-! ## Leader election (`is_winner` in `src/blockchain.rs`) -/

/-- `is_winner`: the stake gate plus the exact big-integer comparison. -/
def is_winner (ledger : Ledger) (draw : Draw) (wallet : Nat) : Bool :=
  if ¬ ledger.can_stake_depthless wallet then false
  else
    let balance := ledger.get_balance wallet
    let total_money := ledger.get_total_money_in_ledger
    let max_hash := 2 ^ 256
    let hardness := 10421 * 10 ^ 73
    let mult_factor := hardness * total_money + balance * (max_hash - hardness)
    decide (draw.value * mult_factor > hardness * total_money * max_hash)

/-! ## Block ordering (`impl PartialOrd for Block`, `src/block.rs`) -/

/-- The `partial_cmp` of `impl PartialOrd for Block`, transcribed branch for
branch (including the duplicated transaction-count comparison of the source);
the `[u8; 32]` lexicographic hash comparison corresponds to the numeric
comparison of the big-endian value. -/
def cmpBlocks (a b : Block) : Ordering :=
  if a.timeslot < b.timeslot then .gt
  else if a.timeslot > b.timeslot then .lt
  else if a.transactions.length > b.transactions.length then .gt
  else if a.transactions.length > b.transactions.length then .lt
  else compare a.hash b.hash

/-- Rust `block > other`, i.e. `partial_cmp == Some(Greater)`. -/
def blockGT (a b : Block) : Bool := cmpBlocks a b = .gt

/-! ## Blockchain (`src/blockchain.rs`).  The `start_time` field only feeds
the wall-clock read, which is the explicit `now` argument here, so it is not
carried in the state. -/

structure Blockchain where
  blocks : List (List (Nat × Block))
  best_path : List BlockPtr
  dynamic_ledger : Ledger
  static_ledger : Ledger
  root_accounts : List Nat
  orphans : List (Nat × List Block)
  transaction_buffer : List Transaction
deriving DecidableEq, Repr

namespace Blockchain

/-- `Blockchain::start`. -/
def start (root_accounts : List Nat) (genesis_block : Block) : Blockchain :=
  let ledger := root_accounts.foldl
    (fun l accnt => l.reward_winner accnt ROOT_AMOUNT) (Ledger.new root_accounts)
  { blocks := [[(genesis_block.hash, genesis_block)]]
    best_path := [⟨genesis_block.hash, 0⟩]
    dynamic_ledger := ledger
    static_ledger := ledger
    root_accounts := root_accounts
    orphans := []
    transaction_buffer := [] }

/-- `Blockchain::get_block` (a negative depth cast to `usize` indexes far out
of range, so the lookup misses). -/
def get_block (bc : Blockchain) (ptr : BlockPtr) : Option Block :=
  if ptr.depth < 0 then none
  else
    match bc.blocks.get? ptr.depth.toNat with
    | none => none
    | some level => alook level ptr.hash

/-- `Blockchain::get_parent`. -/
def get_parent (bc : Blockchain) (block : Block) : Option Block :=
  bc.get_block ⟨block.prev_hash, block.depth - 1⟩

/-- `Blockchain::get_parent_from_ptr`. -/
def get_parent_from_ptr (bc : Blockchain) (ptr : BlockPtr) : Option Block :=
  match bc.get_block ptr with
  | none => none
  | some block => bc.get_parent block

/-- The pointer of the parent of the block at `ptr`. -/
def parentPtr (bc : Blockchain) (ptr : BlockPtr) : Option BlockPtr :=
  (bc.get_parent_from_ptr ptr).map Block.ptr

/-- `Blockchain::check_seed`; `none` is the unchecked `best_path` index. -/
def check_seed (bc : Blockchain) (block : Block) : Option (Res Unit) :=
  if block.depth < SEED_AGE then
    match bc.best_path.get? 0 with
    | none => none
    | some genesis_block_ptr =>
        match bc.get_block genesis_block_ptr with
        | none => some (.err "Could not find genesis block")
        | some genesis_block =>
            if block.draw.seed ≠ genesis_block.draw.seed then some (.err "seed mismatch")
            else some (.ok ())
  else
    match bc.best_path.get? (block.depth - SEED_AGE).toNat with
    | none => none
    | some seed_block_ptr =>
        match bc.get_block seed_block_ptr with
        | none => some (.err "Could not find seed block")
        | some _ =>
            if block.draw.seed ≠ ⟨seed_block_ptr⟩ then some (.err "seed mismatch")
            else some (.ok ())

/-- `Blockchain::get_static_block_ptr` (`saturating_sub` of `SEED_AGE`,
unchecked `best_path` index). -/
def get_static_block_ptr (bc : Blockchain) (dynamic_depth : Int) : Option BlockPtr :=
  if dynamic_depth < 0 then none
  else bc.best_path.get? (dynamic_depth.toNat - 50)

/-- `Blockchain::calculate_reward` (the `&self` receiver is unused). -/
def calculate_reward (block : Block) : Nat :=
  block.transactions.length * TRANSACTION_FEE + BLOCK_REWARD

end Blockchain

/-- The transaction loop shared by `Blockchain::proccess_transactions`
(source spelling kept) and the forward replay of `get_static_ledger_of`.
Modelled from the spec: the call sites in `src/blockchain.rs` invoke a
depth-less `process_transaction` that is absent from the sources; per §4.4
of the spec the publication depth recorded is the depth of the enclosing
block, which is the `depth` passed here. -/
def proccess_transactions (oc : SigOracle) (l : Ledger) (txs : List Transaction)
    (depth : Int) : Option (Ledger × Res Unit) :=
  match txs with
  | [] => some (l, .ok ())
  | t :: rest =>
      match l.process_transaction oc t depth with
      | none => none
      | some (l', .err e) => some (l', .err e)
      | some (l', .ok ()) => proccess_transactions oc l' rest depth

/-- The per-block rollback loop of the backward replay in
`get_static_ledger_of` (`rollback_transaction` over the block transactions
in source order). -/
def rollbackTxs (l : Ledger) (txs : List Transaction) (depth : Int) : Option Ledger :=
  match txs with
  | [] => some l
  | t :: rest =>
      match l.rollback_transaction t depth with
      | none => none
      | some l' => rollbackTxs l' rest depth

namespace Blockchain

/-- The backward replay loop of `get_static_ledger_of`. -/
def staticGoBack (bc : Blockchain) (l : Ledger) : List BlockPtr → Option (Res Ledger)
  | [] => some (.ok l)
  | ptr :: rest =>
      match bc.get_block ptr with
      | none => some (.err "invalid deref")
      | some block =>
          let reward := calculate_reward block
          match l.rollback_reward block.draw.signed_by reward with
          | none => none
          | some l =>
              match rollbackTxs l block.transactions block.depth with
              | none => none
              | some l => staticGoBack bc l rest

/-- The forward replay loop of `get_static_ledger_of`. -/
def staticGoForward (oc : SigOracle) (bc : Blockchain) (l : Ledger) :
    List BlockPtr → Option (Res Ledger)
  | [] => some (.ok l)
  | ptr :: rest =>
      match bc.get_block ptr with
      | none => some (.err "invalid deref")
      | some block =>
          let l := l.reward_winner block.draw.signed_by (calculate_reward block)
          match proccess_transactions oc l block.transactions block.depth with
          | none => none
          | some (_, .err e) => some (.err e)
          | some (l, .ok ()) => staticGoForward oc bc l rest

/-- `Blockchain::get_static_ledger_of`: replay from the current static
position backward or forward to the target position; `none` marks the
unchecked slice bounds. -/
def get_static_ledger_of (bc : Blockchain) (oc : SigOracle) (dynamic_depth : Int) :
    Option (Res Ledger) :=
  match bc.get_static_block_ptr (bc.best_path.length : Int),
        bc.get_static_block_ptr dynamic_depth with
  | some current_static_ptr, some target_static_ptr =>
      if current_static_ptr = target_static_ptr then some (.ok bc.static_ledger)
      else if current_static_ptr.depth > target_static_ptr.depth then
        if current_static_ptr.depth < 0 ∨ target_static_ptr.depth < 0 then none
        else
          let fromN := current_static_ptr.depth.toNat
          let toN := target_static_ptr.depth.toNat
          if bc.best_path.length < fromN then none
          else bc.staticGoBack bc.static_ledger ((bc.best_path.drop toN).take (fromN - toN)).reverse
      else
        if current_static_ptr.depth < 0 ∨ target_static_ptr.depth < 0 then none
        else
          let fromN := current_static_ptr.depth.toNat
          let toN := target_static_ptr.depth.toNat
          if bc.best_path.length < toN then none
          else bc.staticGoForward oc bc.static_ledger ((bc.best_path.drop fromN).take (toN - fromN))
  | _, _ => none

/-- `Blockchain::update_static_ledger`. -/
def update_static_ledger (bc : Blockchain) (oc : SigOracle) :
    Option (Blockchain × Res Unit) :=
  match bc.get_static_ledger_of oc (bc.best_path.length : Int) with
  | none => none
  | some (.err e) => some (bc, .err e)
  | some (.ok new_static_ledger) =>
      some ({ bc with static_ledger := new_static_ledger }, .ok ())

/-- The per-transaction validation loop at the top of
`can_block_be_added`. -/
def validateBlockTxs (oc : SigOracle) (l : Ledger) : List Transaction → Res Unit
  | [] => .ok ()
  | t :: rest =>
      match l.is_transaction_valid oc t with
      | .err e => .err e
      | .ok () => validateBlockTxs oc l rest

/-- `Blockchain::can_block_be_added`. -/
def can_block_be_added (bc : Blockchain) (oc : SigOracle) (now : Nat)
    (block : Block) : Option (Res Unit) :=
  if ¬ oc.blockSig block then some (.err "BadSignature: block signature verification failed")
  else
    match validateBlockTxs oc bc.dynamic_ledger block.transactions with
    | .err e => some (.err e)
    | .ok () =>
        match bc.check_seed block with
        | none => none
        | some (.err e) => some (.err e)
        | some (.ok ()) =>
            if block.timeslot > now then some (.err "Invalid timeslot")
            else
              let parentCheck : Res Unit :=
                match bc.get_parent block with
                | some parent =>
                    if block.timeslot ≤ parent.timeslot then
                      .err "Invalid timeslot in relation to parents"
                    else if parent.hash = block.hash then .err "Duplicate hash"
                    else .ok ()
                | none => .ok ()
              match parentCheck with
              | .err e => some (.err e)
              | .ok () =>
                  match bc.get_static_ledger_of oc block.depth with
                  | none => none
                  | some (.err e) => some (.err e)
                  | some (.ok static_ledger) =>
                      if is_winner static_ledger block.draw block.draw.signed_by then
                        some (.ok ())
                      else some (.err "NotWinner")

/-- The rollback loop over the transactions of a popped block
(`rollback_transaction` in reverse order, each reinserted in the mempool). -/
def rollbackTxsIntoBuffer (l : Ledger) (buf : List Transaction) (depth : Int) :
    List Transaction → Option (Ledger × List Transaction)
  | [] => some (l, buf)
  | t :: rest =>
      match l.rollback_transaction t depth with
      | none => none
      | some l' => rollbackTxsIntoBuffer l' (sinsert buf t) depth rest

/-- `Blockchain::rollback_block`. -/
def rollback_block (bc : Blockchain) (oc : SigOracle) (block_ptr : BlockPtr) :
    Option (Blockchain × Res Unit) :=
  match bc.best_path.getLast? with
  | none => none
  | some head =>
      if block_ptr ≠ head then some (bc, .err "Cannot rollback a block that is not best")
      else
        let bc := { bc with best_path := bc.best_path.dropLast }
        match bc.get_block block_ptr with
        | none => some (bc, .err "Cannot rollback a missing block")
        | some block =>
            match rollbackTxsIntoBuffer bc.dynamic_ledger bc.transaction_buffer
                block.depth block.transactions.reverse with
            | none => none
            | some (l, buf) =>
                match l.rollback_reward block.draw.signed_by (calculate_reward block) with
                | none => none
                | some l =>
                    let bc := { bc with dynamic_ledger := l, transaction_buffer := buf }
                    if block.depth < 0 then none
                    else
                      match bc.blocks.get? block.depth.toNat with
                      | none => none
                      | some level =>
                          if ¬ acontains level block_ptr.hash then
                            some (bc, .err "No block to remove")
                          else
                            let level' := aerase level block_ptr.hash
                            let bc := { bc with blocks := bc.blocks.set block.depth.toNat level' }
                            let bc :=
                              if block.depth ≥ (bc.best_path.length : Int) ∧ level'.length = 0
                              then { bc with blocks := bc.blocks.eraseIdx block.depth.toNat }
                              else bc
                            bc.update_static_ledger oc

/-- The depth-equalizing loops of `find_common_ancestor`: step `p` to its
parent while `bound < p.depth`. -/
def walkUpWhile (bc : Blockchain) (bound : Int) : Nat → BlockPtr → Option BlockPtr
  | 0, p => if bound < p.depth then none else some p
  | fuel + 1, p =>
      if bound < p.depth then
        match bc.parentPtr p with
        | none => none
        | some q => walkUpWhile bc bound fuel q
      else some p

/-- The joint walking loop of `find_common_ancestor`: after stepping both
sides the loop aborts when either side is at depth 0, before the equality of
the two sides is re-examined. -/
def walkTogether (bc : Blockchain) : Nat → BlockPtr → BlockPtr → Option BlockPtr
  | 0, l, r => if l = r then some l else none
  | fuel + 1, l, r =>
      if l = r then some l
      else
        match bc.parentPtr l, bc.parentPtr r with
        | some l', some r' =>
            if l'.depth = 0 ∨ r'.depth = 0 then none
            else walkTogether bc fuel l' r'
        | _, _ => none

/-- `Blockchain::find_common_ancestor`. -/
def find_common_ancestor (bc : Blockchain) (fuel : Nat) (left right : BlockPtr) :
    Option BlockPtr :=
  match bc.walkUpWhile left.depth fuel right with
  | none => none
  | some right' =>
      match bc.walkUpWhile right'.depth fuel left with
      | none => none
      | some left' => bc.walkTogether fuel left' right'

/-- The path-collection loop of `Blockchain::rollback` (`while to != common`,
with a typed `no parent` error when the chain breaks). -/
def collectPath (bc : Blockchain) : Nat → BlockPtr → BlockPtr → Option (Res (List BlockPtr))
  | 0, target, common => if target = common then some (.ok []) else none
  | fuel + 1, target, common =>
      if target = common then some (.ok [])
      else
        match bc.parentPtr target with
        | none => some (.err "no parent")
        | some p =>
            match collectPath bc fuel p common with
            | none => none
            | some (.err e) => some (.err e)
            | some (.ok path) => some (.ok (target :: path))

/-- The rollback loop of `Blockchain::rollback` (`while from != common`): the
parent of `from` is looked up only after `rollback_block` has removed the
block `from` from the tree. -/
def rollbackUntil (bc : Blockchain) (oc : SigOracle) : Nat → BlockPtr → BlockPtr →
    Option (Blockchain × Res Unit)
  | 0, frm, common => if frm = common then some (bc, .ok ()) else none
  | fuel + 1, frm, common =>
      if frm = common then some (bc, .ok ())
      else
        match bc.rollback_block oc frm with
        | none => none
        | some (bc', .err e) => some (bc', .err e)
        | some (bc', .ok ()) =>
            match bc'.parentPtr frm with
            | none => some (bc', .err "no parent")
            | some p => rollbackUntil bc' oc fuel p common

end Blockchain

/-- The while-push loop growing `blocks` up to the depth of a new block. -/
def growTo (blocks : List (List (Nat × Block))) (n : Nat) :
    List (List (Nat × Block)) :=
  blocks ++ List.replicate (n - blocks.length) []

mutual

/-- `Blockchain::add_block`; `fuel` bounds the recursive orphan adoption and
the mutual recursion with `rollback`, and every recursive call consumes one
unit, so `none` covers both a panic and fuel exhaustion. -/
def add_block (fuel : Nat) (oc : SigOracle) (now : Nat) (bc : Blockchain)
    (block : Block) : Option (Blockchain × Res Unit) :=
  match fuel with
  | 0 => none
  | fuel + 1 =>
    match bc.can_block_be_added oc now block with
    | none => none
    | some (.err e) => some (bc, .err e)
    | some (.ok ()) =>
        match bc.get_parent block with
        | none =>
            let orphans :=
              match alook bc.orphans block.prev_hash with
              | some os => aset bc.orphans block.prev_hash (os ++ [block])
              | none => bc.orphans ++ [(block.prev_hash, [block])]
            some ({ bc with orphans := orphans }, .ok ())
        | some _ =>
            if block.depth < 0 then none
            else
              let d := block.depth.toNat
              let bc1 := { bc with blocks := ((growTo bc.blocks (d + 1)).set d
                  (ainsert ((growTo bc.blocks (d + 1)).getD d []) block.hash block)) }
              let block_ptr := block.ptr
              match bc1.get_parent block with
              | none => none
              | some parent =>
                  let parent_ptr := parent.ptr
                  match bc1.best_path.getLast? with
                  | none => none
                  | some old_best_path =>
                      let headPhase : Option (Blockchain × Res Unit) :=
                        if old_best_path = parent_ptr then
                          let bc2 := { bc1 with transaction_buffer :=
                            (block.transactions.foldl sremove bc1.transaction_buffer) }
                          match proccess_transactions oc bc2.dynamic_ledger
                              block.transactions block.depth with
                          | none => none
                          | some (l, .err e) =>
                              some ({ bc2 with dynamic_ledger := l }, .err e)
                          | some (l, .ok ()) =>
                              let l := l.reward_winner block.draw.signed_by
                                (Blockchain.calculate_reward block)
                              let bc5 := { bc2 with
                                dynamic_ledger := l
                                best_path := bc2.best_path ++ [block_ptr] }
                              some (bc5, .ok ())
                        else
                          match bc1.get_block old_best_path with
                          | none => none
                          | some head_block =>
                              if blockGT block head_block then
                                rollback fuel oc now bc1 old_best_path block_ptr
                              else some (bc1, .ok ())
                      match headPhase with
                      | none => none
                      | some (bc3, .err e) => some (bc3, .err e)
                      | some (bc3, .ok ()) =>
                          let orphanPhase : Option (Blockchain × Res Unit) :=
                            match alook bc3.orphans block.hash with
                            | some os =>
                                add_blocks fuel oc now
                                  { bc3 with orphans := aerase bc3.orphans block.hash } os
                            | none => some (bc3, .ok ())
                          match orphanPhase with
                          | none => none
                          | some (bc4, .err e) => some (bc4, .err e)
                          | some (bc4, .ok ()) => bc4.update_static_ledger oc

termination_by structural fuel

/-- The orphan adoption loop of `add_block`. -/
def add_blocks (fuel : Nat) (oc : SigOracle) (now : Nat) (bc : Blockchain) :
    List Block → Option (Blockchain × Res Unit)
  | [] => some (bc, .ok ())
  | b :: rest =>
      match fuel with
      | 0 => none
      | fuel + 1 =>
          match add_block fuel oc now bc b with
          | none => none
          | some (bc', .err e) => some (bc', .err e)
          | some (bc', .ok ()) => add_blocks fuel oc now bc' rest

termination_by structural fuel

/-- `Blockchain::rollback`. -/
def rollback (fuel : Nat) (oc : SigOracle) (now : Nat) (bc : Blockchain)
    (frm tgt : BlockPtr) : Option (Blockchain × Res Unit) :=
  match fuel with
  | 0 => none
  | fuel + 1 =>
    match bc.find_common_ancestor (fuel + 1) frm tgt with
    | none => some (bc, .err "No common ancestor of the rollback")
    | some common =>
        match bc.rollbackUntil oc (fuel + 1) frm common with
        | none => none
        | some (bc', .err e) => some (bc', .err e)
        | some (bc', .ok ()) =>
            match bc'.collectPath (fuel + 1) tgt common with
            | none => none
            | some (.err e) => some (bc', .err e)
            | some (.ok path) => apply_path fuel oc now bc' path.reverse

termination_by structural fuel

/-- The re-application loop of `Blockchain::rollback` (the collected path is
popped from the common ancestor outward). -/
def apply_path (fuel : Nat) (oc : SigOracle) (now : Nat) (bc : Blockchain) :
    List BlockPtr → Option (Blockchain × Res Unit)
  | [] => some (bc, .ok ())
  | ptr :: rest =>
      match fuel with
      | 0 => none
      | fuel + 1 =>
          match bc.get_block ptr with
          | none => some (bc, .err "No block")
          | some b =>
              match add_block fuel oc now bc b with
              | none => none
              | some (bc', .err e) => some (bc', .err e)
              | some (bc', .ok ()) => apply_path fuel oc now bc' rest


termination_by structural fuel
end

namespace Blockchain

/-- `Blockchain::add_transaction`. -/
def add_transaction (bc : Blockchain) (oc : SigOracle) (t : Transaction) :
    Blockchain × Res Unit :=
  if ¬ oc.txSig t then (bc, .err "BadSignature: transaction signature verification failed")
  else
    match bc.dynamic_ledger.is_transaction_valid oc t with
    | .err e => (bc, .err e)
    | .ok () => ({ bc with transaction_buffer := sinsert bc.transaction_buffer t }, .ok ())

end Blockchain

/-! ## Concrete fixtures used by witnesses and counterexamples -/

/-- An oracle under which every signature verifies. -/
def oracleTrue : SigOracle := ⟨fun _ => true, fun _ => true⟩

/-- A concrete genesis block for the root-account list `[1]`. -/
def genesisB : Block := ⟨0, 99, 0, [], ⟨0, 0, 0, 0, ⟨⟨99, 0⟩⟩⟩, 0, 100⟩

/-- The blockchain at genesis for root account `1`. -/
def chain0 : Blockchain := Blockchain.start [1] genesisB

/-- A draw value that beats `HARDNESS` when the staker holds all money. -/
def winValue : Nat := 10422 * 10 ^ 73

/-- A transaction-free depth 1 block extending `genesisB`, won by account 1. -/
def extB : Block := ⟨1, 100, 1, [], ⟨winValue, 1, 0, 1, ⟨⟨99, 0⟩⟩⟩, 0, 101⟩

/-- The blockchain obtained by adding `extB` to `chain0`. -/
def chain1 : Blockchain :=
  ⟨[[(100, genesisB)], [(101, extB)]], [⟨100, 0⟩, ⟨101, 1⟩],
    ⟨[(1, 103000000)], [], [(1, 0)], [1]⟩, ⟨[(1, 100000000)], [], [(1, 0)], [1]⟩,
    [1], [], []⟩

/-- A depth 1 block carrying a transaction whose payer (account 5) cannot pay
the fee; the block passes `can_block_be_added` but fails while its
transactions are applied. -/
def badPayerB : Block :=
  ⟨1, 100, 1, [⟨7, ⟨[5], [⟨[0, 0], 10000⟩]⟩⟩], ⟨winValue, 1, 0, 1, ⟨⟨99, 0⟩⟩⟩, 0, 102⟩

/-- A depth 1 block carrying one self-transfer by the root account; applying
it succeeds, but the fee paid by the payer is never restored on rollback. -/
def feeB : Block :=
  ⟨1, 100, 1, [⟨77, ⟨[1], [⟨[0, 0], 10000⟩]⟩⟩], ⟨winValue, 1, 0, 1, ⟨⟨99, 0⟩⟩⟩, 0, 103⟩

/-- A second depth 1 child of the genesis block (a sibling of `extB`). -/
def sibB : Block := ⟨2, 100, 1, [], ⟨winValue, 2, 0, 1, ⟨⟨99, 0⟩⟩⟩, 0, 105⟩

/-- `chain1` after `sibB` has been stored on the side branch. -/
def chainSib : Blockchain :=
  ⟨[[(100, genesisB)], [(101, extB), (105, sibB)]], [⟨100, 0⟩, ⟨101, 1⟩],
    ⟨[(1, 103000000)], [], [(1, 0)], [1]⟩, ⟨[(1, 100000000)], [], [(1, 0)], [1]⟩,
    [1], [], []⟩

/-! ## Ancestry vocabulary for the common-ancestor claim -/

/-- `n`-fold parent step on block pointers. -/
def iterParent (bc : Blockchain) : Nat → BlockPtr → Option BlockPtr
  | 0, p => some p
  | n + 1, p =>
      match bc.parentPtr p with
      | none => none
      | some q => iterParent bc n q

/-- `a` is an ancestor of `p` (including `p` itself) along `prev_hash`. -/
def IsAncestor (bc : Blockchain) (a p : BlockPtr) : Prop :=
  ∃ n, iterParent bc n p = some a

/-- Every stored block sits under its own hash at its own depth — the
invariant `add_block` maintains for the `blocks` table. -/
def blocksConsistent (bc : Blockchain) : Prop :=
  ∀ d lvl, bc.blocks.get? d = some lvl →
    ∀ p ∈ lvl, (p.2).hash = p.1 ∧ (p.2).depth = (d : Int)

/-! ## Reachability and the conservation invariant (claim C1) -/

/-- Resolve a list of pointers through `get_block`, failing if any misses. -/
def resolveAll (bc : Blockchain) : List BlockPtr → Option (List Block)
  | [] => some []
  | p :: rest =>
      match bc.get_block p with
      | none => none
      | some b =>
          match resolveAll bc rest with
          | none => none
          | some bs => some (b :: bs)

/-- The blocks of the best path, in order. -/
def pathBlocks (bc : Blockchain) : Option (List Block) :=
  resolveAll bc bc.best_path

/-- Total number of transactions carried by a list of blocks. -/
def txTotal (bs : List Block) : Nat :=
  (bs.map (fun b => b.transactions.length)).sum

/-- Total of `calculate_reward` over a list of blocks. -/
def rewardTotal (bs : List Block) : Nat :=
  (bs.map Blockchain.calculate_reward).sum

/-- Every stored non-genesis block has passed the block signature check. -/
def storedVerified (oc : SigOracle) (bc : Blockchain) : Prop :=
  ∀ d lvl, bc.blocks.get? d = some lvl →
    ∀ p ∈ lvl, d = 0 ∨ oc.blockSig p.2 = true

/-- The best path is nonempty and its `i`-th pointer sits at depth `i`. -/
def bestPathShape (bc : Blockchain) : Prop :=
  bc.best_path ≠ [] ∧ ∀ i p, bc.best_path.get? i = some p → p.depth = (i : Int)

/-- The conservation equation of the spec: the dynamic-ledger money plus the
fees burnt by the best-path transactions equals the root grants plus the
rewards of the non-genesis best-path blocks. -/
def MoneyEq (bc : Blockchain) : Prop :=
  ∃ bs, pathBlocks bc = some bs ∧
    bc.dynamic_ledger.get_total_money_in_ledger +
        TRANSACTION_FEE * txTotal (bs.drop 1) =
      bc.root_accounts.length * ROOT_AMOUNT + rewardTotal (bs.drop 1)

/-- The full state invariant carried through the reachability proof. -/
def INV (oc : SigOracle) (bc : Blockchain) : Prop :=
  blocksConsistent bc ∧ storedVerified oc bc ∧ bestPathShape bc ∧
    (bc.dynamic_ledger.map.map Prod.fst).Nodup ∧ MoneyEq bc

/-- States reachable from `start` by successful `add_transaction` and
`add_block` operations (any fuel, any wall clock), for a genesis block of
depth 0. -/
inductive Reach (oc : SigOracle) : Blockchain → Prop
  | start (root_accounts : List Nat) (genesis_block : Block)
      (hdepth : genesis_block.depth = 0) :
      Reach oc (Blockchain.start root_accounts genesis_block)
  | tx {bc bc2 : Blockchain} (t : Transaction) (h : Reach oc bc)
      (hstep : bc.add_transaction oc t = (bc2, .ok ())) : Reach oc bc2
  | blk {bc bc2 : Blockchain} (fuel : Nat) (now : Nat) (b : Block)
      (h : Reach oc bc)
      (hstep : add_block fuel oc now bc b = some (bc2, .ok ())) : Reach oc bc2

/-- A signature oracle accepting exactly the two fixture blocks; since their
hashes differ, it is collision-free in the sense of the C1 hypothesis. -/
def sigInj : SigOracle :=
  ⟨fun b => decide (b = genesisB) || decide (b = extB), fun _ => true⟩

/-! ## Library lemmas on the association-list operations -/

theorem alook_append {α : Type} (xs ys : List (Nat × α)) (k : Nat) :
    alook (xs ++ ys) k =
      match alook xs k with
      | some v => some v
      | none => alook ys k := by
  induction xs with
  | nil => simp [alook]
  | cons p rest ih =>
      obtain ⟨k', v⟩ := p
      by_cases h : k' = k <;> simp [alook, h, ih]

theorem aupd_cons {α : Type} (a : Nat) (v : α) (rest : List (Nat × α)) (k : Nat)
    (f : α → α) :
    aupd ((a, v) :: rest) k f =
      (if a = k then (a, f v) else (a, v)) :: aupd rest k f := by
  by_cases h : a = k <;> simp [aupd, h]

theorem alook_aupd {α : Type} (m : List (Nat × α)) (k : Nat) (f : α → α) (k' : Nat) :
    alook (aupd m k f) k' = if k' = k then (alook m k).map f else alook m k' := by
  induction m with
  | nil => simp [alook, aupd]
  | cons p rest ih =>
      obtain ⟨a, v⟩ := p
      rw [aupd_cons]
      by_cases hak : a = k <;> by_cases hak' : a = k'
      · rw [if_pos hak]; subst hak; subst hak'; simp [alook]
      · rw [if_pos hak]; subst hak
        have h2 : ¬ k' = a := fun h => hak' h.symm
        simp [alook, h2, hak', ih]
      · rw [if_neg hak]; subst hak'
        simp [alook, fun h : a = k => hak h]
      · rw [if_neg hak]
        have h2 : ¬ k' = a := fun h => hak' h.symm
        simp [alook, hak, hak', ih]

theorem alook_aset {α : Type} (m : List (Nat × α)) (k : Nat) (v : α) (k' : Nat) :
    alook (aset m k v) k' = if k' = k then (alook m k).map (fun _ => v) else alook m k' :=
  alook_aupd m k (fun _ => v) k'

theorem aerase_cons {α : Type} (a : Nat) (v : α) (rest : List (Nat × α)) (k : Nat) :
    aerase ((a, v) :: rest) k =
      if a = k then aerase rest k else (a, v) :: aerase rest k := by
  by_cases h : a = k <;> simp [aerase, h]

theorem alook_aerase {α : Type} (m : List (Nat × α)) (k : Nat) (k' : Nat) :
    alook (aerase m k) k' = if k' = k then none else alook m k' := by
  induction m with
  | nil => simp [alook, aerase]
  | cons p rest ih =>
      obtain ⟨a, v⟩ := p
      rw [aerase_cons]
      by_cases hak : a = k <;> by_cases hak' : a = k'
      · rw [if_pos hak]; subst hak; subst hak'; simp [alook, ih]
      · rw [if_pos hak]; subst hak
        have h2 : ¬ k' = a := fun h => hak' h.symm
        simp [alook, h2, hak', ih]
      · rw [if_neg hak]; subst hak'
        have h2 : ¬ a = k := hak
        simp [alook, fun h : a = k => hak h]
      · rw [if_neg hak]
        have h2 : ¬ k' = a := fun h => hak' h.symm
        simp [alook, hak', ih]

theorem sremove_append_self {α : Type} [DecidableEq α] (xs : List α) (h : α)
    (hni : h ∉ xs) : sremove (xs ++ [h]) h = xs := by
  induction xs with
  | nil => simp [sremove]
  | cons x rest ih =>
      simp only [List.mem_cons, not_or] at hni
      have h1 : ¬ x = h := fun hh => hni.1 hh.symm
      have hstep : sremove (x :: (rest ++ [h])) h = x :: sremove (rest ++ [h]) h := by
        simp [sremove, h1]
      rw [List.cons_append, hstep, ih hni.2]

theorem alook_eq_none_iff {α : Type} (m : List (Nat × α)) (k : Nat) :
    alook m k = none ↔ k ∉ m.map Prod.fst := by
  induction m with
  | nil => simp [alook]
  | cons p rest ih =>
      obtain ⟨a, v⟩ := p
      by_cases h : a = k
      · subst h; simp [alook]
      · rw [show alook ((a, v) :: rest) k = alook rest k from by simp [alook, h]]
        rw [ih]
        simp only [List.map_cons, List.mem_cons, not_or]
        constructor
        · intro hh; exact ⟨fun hc => h hc.symm, hh⟩
        · intro hh; exact hh.2

theorem acontains_iff_some {α : Type} (m : List (Nat × α)) (k : Nat) :
    acontains m k = true ↔ ∃ v, alook m k = some v := by
  unfold acontains
  cases hv : alook m k <;> simp

theorem not_acontains_iff_none {α : Type} (m : List (Nat × α)) (k : Nat) :
    acontains m k = false ↔ alook m k = none := by
  unfold acontains
  cases hv : alook m k <;> simp

theorem alook_add_acount (l : Ledger) (a k : Nat) :
    alook (l.add_acount_if_absent a).map k =
      if k = a then some ((alook l.map a).getD 0) else alook l.map k := by
  unfold Ledger.add_acount_if_absent
  by_cases hc : acontains l.map a
  · rw [if_pos hc]
    obtain ⟨v, hv⟩ := (acontains_iff_some l.map a).mp hc
    by_cases hk : k = a
    · subst hk; rw [if_pos rfl, hv]; simp [hv]
    · rw [if_neg hk]
  · rw [if_neg hc]
    have hv : alook l.map a = none := (not_acontains_iff_none l.map a).mp
      (Bool.not_eq_true _ ▸ (by simpa using hc))
    show alook (l.map ++ [(a, 0)]) k = _
    rw [alook_append]
    by_cases hk : k = a
    · subst hk
      rw [hv]
      simp [alook, hv]
    · rw [if_neg hk]
      have h2 : ¬ a = k := fun h => hk h.symm
      cases hw : alook l.map k <;> simp [hw, alook, h2]

theorem add_acount_previous (l : Ledger) (a : Nat) :
    (l.add_acount_if_absent a).previous_transactions = l.previous_transactions := by
  unfold Ledger.add_acount_if_absent
  split <;> rfl

/-! ### Snapshot lemmas -/

theorem snapLook_fold (m : List (Nat × Nat)) (k : Nat) :
    ∀ (accounts : List Nat) (s : Snapshot),
      alook ((accounts.foldl (fun s pk => s.snapshot_balance pk m) s).balances) k =
        match alook s.balances k with
        | some v => some v
        | none => if k ∈ accounts then some (alook m k) else none := by
  intro accounts
  induction accounts with
  | nil => intro s; cases hs : alook s.balances k <;> simp [hs]
  | cons pk rest ih =>
      intro s
      rw [List.foldl_cons, ih]
      unfold Snapshot.snapshot_balance acontains
      cases hs : alook s.balances k
      · by_cases hpk : acontains s.balances pk
        · unfold acontains at hpk
          rw [if_pos (by simpa using hpk)]
          rw [hs]
          by_cases hkpk : k = pk
          · subst hkpk
            rw [hs] at hpk; simp at hpk
          · simp [List.mem_cons, hkpk]
        · unfold acontains at hpk
          rw [if_neg (by simpa using hpk)]
          simp only [alook_append, hs]
          by_cases hkpk : pk = k
          · subst hkpk
            simp [alook, List.mem_cons]
          · have h2 : ¬ k = pk := fun h => hkpk h.symm
            simp [alook, hkpk, List.mem_cons, h2]
      · by_cases hpk : acontains s.balances pk
        · unfold acontains at hpk
          rw [if_pos (by simpa using hpk)]
          rw [hs]
        · unfold acontains at hpk
          rw [if_neg (by simpa using hpk)]
          simp only [alook_append, hs]

theorem takeSnapshot_mem (accounts : List Nat) (m : List (Nat × Nat))
    (k : Nat) (h : k ∈ accounts) :
    alook (takeSnapshot accounts m).balances k = some (alook m k) := by
  unfold takeSnapshot
  rw [snapLook_fold]
  simp [alook, h]

theorem takeSnapshot_not_mem (accounts : List Nat) (m : List (Nat × Nat))
    (k : Nat) (h : k ∉ accounts) :
    alook (takeSnapshot accounts m).balances k = none := by
  unfold takeSnapshot
  rw [snapLook_fold]
  simp [alook, h]

theorem takeSnapshot_entries (m : List (Nat × Nat)) :
    ∀ (accounts : List Nat) (s : Snapshot),
      (∀ p ∈ s.balances, p.2 = alook m p.1) →
      ∀ p ∈ ((accounts.foldl (fun s pk => s.snapshot_balance pk m) s).balances),
        p.2 = alook m p.1 := by
  intro accounts
  induction accounts with
  | nil => intro s hs; simpa using hs
  | cons pk rest ih =>
      intro s hs
      rw [List.foldl_cons]
      apply ih
      unfold Snapshot.snapshot_balance
      split
      · exact hs
      · intro p hp
        rcases List.mem_append.mp hp with h | h
        · exact hs p h
        · simp at h; subst h; rfl

theorem takeSnapshot_nodup (m : List (Nat × Nat)) :
    ∀ (accounts : List Nat) (s : Snapshot),
      (s.balances.map Prod.fst).Nodup →
      ((accounts.foldl (fun s pk => s.snapshot_balance pk m) s).balances.map Prod.fst).Nodup := by
  intro accounts
  induction accounts with
  | nil => intro s hs; simpa using hs
  | cons pk rest ih =>
      intro s hs
      rw [List.foldl_cons]
      apply ih
      unfold Snapshot.snapshot_balance
      by_cases hpk : acontains s.balances pk
      · rw [if_pos hpk]; exact hs
      · rw [if_neg hpk]
        have hnone : alook s.balances pk = none :=
          (not_acontains_iff_none s.balances pk).mp (by simpa using hpk)
        simp only [List.map_append, List.map_cons, List.map_nil]
        rw [List.nodup_append]
        refine ⟨hs, List.nodup_singleton pk, ?_⟩
        intro a ha hb
        simp only [List.mem_singleton] at hb
        subst hb
        exact ((alook_eq_none_iff s.balances a).mp hnone) ha

/-! ### Effect lemmas for the instruction phase -/

theorem aset_isSome {α : Type} (m : List (Nat × α)) (k : Nat) (v : α) (k' : Nat)
    (h : (alook m k').isSome) : (alook (aset m k v) k').isSome := by
  rw [alook_aset]
  split
  · next heq => subst heq; cases hv : alook m k' <;> simp_all
  · exact h

theorem process_instruction_effects (l : Ledger) (ix : CompiledInstruction)
    (msg : TransactionMessage) (depth : Int) (l2 : Ledger) (r : Res Unit)
    (h : l.process_instruction ix msg depth = some (l2, r)) :
    (∀ k, k ∉ msg.accounts → alook l2.map k = alook l.map k) ∧
    (∀ k, (alook l.map k).isSome → (alook l2.map k).isSome) ∧
    l2.previous_transactions = l.previous_transactions := by
  unfold Ledger.process_instruction at h
  cases h0 : ix.account_indices.get? 0 with
  | none =>
      rw [h0] at h; dsimp only at h; exact absurd h (by simp)
  | some fi =>
  rw [h0] at h
  cases h1 : ix.account_indices.get? 1 with
  | none =>
      rw [h1] at h; dsimp only at h; exact absurd h (by simp)
  | some ti =>
  rw [h1] at h
  dsimp only at h
  cases hf : msg.accounts.get? fi with
  | none =>
      rw [hf] at h; dsimp only at h
      simp only [Option.some_inj, Prod.mk.injEq] at h
      obtain ⟨h2, _⟩ := h
      subst h2
      exact ⟨fun k _ => rfl, fun k hk => hk, rfl⟩
  | some fromPk =>
  rw [hf] at h; dsimp only at h
  cases ht : msg.accounts.get? ti with
  | none =>
      rw [ht] at h; dsimp only at h
      simp only [Option.some_inj, Prod.mk.injEq] at h
      obtain ⟨h2, _⟩ := h
      subst h2
      exact ⟨fun k _ => rfl, fun k hk => hk, rfl⟩
  | some toPk =>
  rw [ht] at h; dsimp only at h
  have hfm : fromPk ∈ msg.accounts := List.get?_mem hf
  have htm : toPk ∈ msg.accounts := List.get?_mem ht
  set la := (l.add_acount_if_absent fromPk).add_acount_if_absent toPk with hla
  have hlaMap : ∀ k, k ∉ msg.accounts → alook la.map k = alook l.map k := by
    intro k hk
    have hk1 : ¬ k = toPk := fun hh => hk (by rw [hh]; exact htm)
    have hk2 : ¬ k = fromPk := fun hh => hk (by rw [hh]; exact hfm)
    rw [hla, alook_add_acount, if_neg hk1, alook_add_acount, if_neg hk2]
  have hlaSome : ∀ k, (alook l.map k).isSome → (alook la.map k).isSome := by
    intro k hk
    rw [hla, alook_add_acount]
    by_cases hk1 : k = toPk
    · rw [if_pos hk1]; simp
    · rw [if_neg hk1, alook_add_acount]
      by_cases hk2 : k = fromPk
      · rw [if_pos hk2]; simp
      · rw [if_neg hk2]; exact hk
  have hlaPrev : la.previous_transactions = l.previous_transactions := by
    rw [hla, add_acount_previous, add_acount_previous]
  cases hfb : alook la.map fromPk with
  | none => rw [hfb] at h; exact absurd h (by simp)
  | some from_balance =>
  rw [hfb] at h
  dsimp only at h
  by_cases hlt : from_balance < ix.amount
  · rw [if_pos hlt] at h
    simp only [Option.some_inj, Prod.mk.injEq] at h
    obtain ⟨h2, _⟩ := h
    subst h2
    exact ⟨hlaMap, hlaSome, hlaPrev⟩
  · rw [if_neg hlt] at h
    cases htb : alook (aset la.map fromPk (from_balance - ix.amount)) toPk with
    | none => rw [htb] at h; exact absurd h (by simp)
    | some to_balance =>
    rw [htb] at h
    dsimp only at h
    have hgoal : l2.map =
        aset (aset la.map fromPk (from_balance - ix.amount)) toPk
          (to_balance + ix.amount) ∧
        l2.previous_transactions = la.previous_transactions := by
      by_cases hpub : (¬ acontains la.published_accounts toPk = true ∧
          MINIMUM_STAKE_AMOUNT ≤ to_balance + ix.amount)
      · rw [if_pos hpub] at h
        simp only [Option.some_inj, Prod.mk.injEq] at h
        obtain ⟨h2, _⟩ := h
        rw [← h2]
        exact ⟨rfl, rfl⟩
      · rw [if_neg hpub] at h
        simp only [Option.some_inj, Prod.mk.injEq] at h
        obtain ⟨h2, _⟩ := h
        rw [← h2]
        exact ⟨rfl, rfl⟩
    obtain ⟨hmap2, hprev2⟩ := hgoal
    refine ⟨?_, ?_, hprev2.trans hlaPrev⟩
    · intro k hk
      have hk1 : ¬ k = toPk := fun hh => hk (by rw [hh]; exact htm)
      have hk2 : ¬ k = fromPk := fun hh => hk (by rw [hh]; exact hfm)
      rw [hmap2, alook_aset, if_neg hk1, alook_aset, if_neg hk2]
      exact hlaMap k hk
    · intro k hk
      rw [hmap2]
      exact aset_isSome _ _ _ _ (aset_isSome _ _ _ _ (hlaSome k hk))

theorem process_instructions_effects (msg : TransactionMessage) (depth : Int) :
    ∀ (ixs : List CompiledInstruction) (l : Ledger) (l2 : Ledger) (r : Res Unit),
    Ledger.process_instructions l ixs msg depth = some (l2, r) →
    (∀ k, k ∉ msg.accounts → alook l2.map k = alook l.map k) ∧
    (∀ k, (alook l.map k).isSome → (alook l2.map k).isSome) ∧
    l2.previous_transactions = l.previous_transactions := by
  intro ixs
  induction ixs with
  | nil =>
      intro l l2 r h
      unfold Ledger.process_instructions at h
      simp at h
      obtain ⟨h1, _⟩ := h
      subst h1
      simp
  | cons ix rest ih =>
      intro l l2 r h
      unfold Ledger.process_instructions at h
      cases hstep : l.process_instruction ix msg depth <;> rw [hstep] at h
      · exact absurd h (by simp)
      · next p =>
        obtain ⟨l1, r1⟩ := p
        obtain ⟨hm1, hs1, hp1⟩ := process_instruction_effects l ix msg depth l1 r1 hstep
        cases r1 with
        | err e =>
            simp at h
            obtain ⟨h2, _⟩ := h
            subst h2
            exact ⟨hm1, hs1, hp1⟩
        | ok a =>
            cases a
            obtain ⟨hm2, hs2, hp2⟩ := ih l1 l2 r h
            exact ⟨fun k hk => (hm2 k hk).trans (hm1 k hk),
              fun k hk => hs2 k (hs1 k hk), hp2.trans hp1⟩

/-! ### The snapshot restore lemma -/

theorem restoreSnapshot_restores (orig : Ledger) :
    ∀ (entries : List (Nat × Option Nat)) (l2 : Ledger),
    (∀ p ∈ entries, p.2 = alook orig.map p.1) →
    (∀ k, k ∉ entries.map Prod.fst → alook l2.map k = alook orig.map k) →
    (∀ k, (alook orig.map k).isSome → (alook l2.map k).isSome) →
    ∃ lr, Ledger.restoreSnapshot l2 entries = some lr ∧
      (∀ k, alook lr.map k = alook orig.map k) ∧
      lr.previous_transactions = l2.previous_transactions := by
  intro entries
  induction entries with
  | nil =>
      intro l2 _ hoff _
      refine ⟨l2, rfl, fun k => hoff k (by simp), rfl⟩
  | cons p rest ih =>
      intro l2 hent hoff hsome
      obtain ⟨pk, v⟩ := p
      have hv : v = alook orig.map pk := hent (pk, v) (by simp)
      subst hv
      cases hoa : alook orig.map pk with
      | some a =>
          have hl2some : (alook l2.map pk).isSome := hsome pk (by rw [hoa]; rfl)
          have hcont : acontains l2.map pk = true := by
            unfold acontains; exact hl2some
          have hstep : Ledger.restoreSnapshot l2 ((pk, some a) :: rest) =
              if acontains l2.map pk then
                Ledger.restoreSnapshot { l2 with map := aset l2.map pk a } rest
              else none := rfl
          rw [hstep, if_pos hcont]
          apply ih
          · intro q hq; exact hent q (List.mem_cons_of_mem _ hq)
          · intro k hk
            by_cases hkpk : k = pk
            · subst hkpk
              simp only [alook_aset, if_pos rfl]
              cases hw : alook l2.map k
              · rw [hw] at hl2some; simp at hl2some
              · simp [hoa]
            · simp only [alook_aset, if_neg hkpk]
              exact hoff k (by simpa [hkpk] using hk)
          · intro k hk
            exact aset_isSome _ _ _ _ (hsome k hk)
      | none =>
          have hstep : Ledger.restoreSnapshot l2 ((pk, none) :: rest) =
              Ledger.restoreSnapshot (l2.delete_account pk) rest := rfl
          rw [hstep]
          have hmap : (l2.delete_account pk).map = aerase l2.map pk := rfl
          have hprev : (l2.delete_account pk).previous_transactions =
              l2.previous_transactions := rfl
          obtain ⟨lr, hlr, hlrk, hlrp⟩ := ih (l2.delete_account pk)
            (fun q hq => hent q (List.mem_cons_of_mem _ hq))
            (by
              intro k hk
              rw [hmap, alook_aerase]
              by_cases hkpk : k = pk
              · subst hkpk; simp [hoa]
              · rw [if_neg hkpk]
                exact hoff k (by simpa [hkpk] using hk))
            (by
              intro k hk
              rw [hmap, alook_aerase]
              have hkpk : ¬ k = pk := by
                intro hh; subst hh; rw [hoa] at hk; simp at hk
              rw [if_neg hkpk]
              exact hsome k hk)
          exact ⟨lr, hlr, hlrk, hlrp.trans hprev⟩

/-! ### Validation inversion -/

theorem is_transaction_valid_ok_not_replayed (oc : SigOracle) (l : Ledger)
    (t : Transaction) (h : l.is_transaction_valid oc t = .ok ()) :
    t.hash ∉ l.previous_transactions := by
  unfold Ledger.is_transaction_valid at h
  cases hv : t.validate oc with
  | ok a =>
      cases a
      rw [hv] at h
      dsimp only at h
      by_cases hm : t.hash ∈ l.previous_transactions
      · rw [if_pos hm] at h; cases h
      · exact hm
  | err e =>
      rw [hv] at h
      dsimp only at h
      cases h

/-! ## Claim C3: instruction failure fully reverts the balance map -/

/-- C3: whenever `process_transaction` fails because an instruction fails
(the three instruction-failure errors), the snapshot restore brings every
balance back to its recorded value, deletes the accounts whose snapshot was
`None`, removes `tx.hash` from `previous_transactions`, and returns the
error; the `TRANSACTION_FEE` deducted earlier in the call is also reverted,
so the balance map and the replay set equal their values before the call. -/
theorem c3_instruction_failure_full_revert (oc : SigOracle) (l : Ledger)
    (t : Transaction) (depth : Int) (l' : Ledger) (e : String)
    (hrun : l.process_transaction oc t depth = some (l', .err e))
    (he : e = "Failed to get sending public key during instruction processing" ∨
          e = "Failed to get receiving public key during instruction processing" ∨
          e = "The sender does not have enoug MiniLas to perform the instruction") :
    (∀ k, alook l'.map k = alook l.map k) ∧
    l'.previous_transactions = l.previous_transactions := by
  unfold Ledger.process_transaction at hrun
  cases hv : l.is_transaction_valid oc t with
  | err e' =>
    rw [hv] at hrun
    dsimp only at hrun
    simp at hrun
    obtain ⟨h1, _⟩ := hrun
    subst h1
    exact ⟨fun k => rfl, rfl⟩
  | ok a =>
    cases a
    rw [hv] at hrun
    dsimp only at hrun
    have hnotrep : t.hash ∉ l.previous_transactions :=
      is_transaction_valid_ok_not_replayed oc l t hv
    cases hp0 : t.message.accounts.get? 0 with
    | none => rw [hp0] at hrun; dsimp only at hrun; exact absurd hrun (by simp)
    | some payer =>
      rw [hp0] at hrun
      dsimp only at hrun
      have hpm : payer ∈ t.message.accounts := List.get?_mem hp0
      cases hpb : alook (l.add_acount_if_absent payer).map payer with
      | none =>
        exfalso
        rw [alook_add_acount, if_pos rfl] at hpb
        cases hpb
      | some payer_balance =>
        rw [hpb] at hrun
        dsimp only at hrun
        by_cases hfee : ¬ payer_balance > TRANSACTION_FEE
        · rw [if_pos hfee] at hrun
          simp at hrun
          obtain ⟨_, h2⟩ := hrun
          rcases he with he | he | he <;> rw [he] at h2 <;> exact absurd h2 (by decide)
        · rw [if_neg hfee] at hrun
          by_cases hrep : t.hash ∈ (l.add_acount_if_absent payer).previous_transactions
          · rw [if_pos hrep] at hrun
            simp at hrun
            obtain ⟨_, h2⟩ := hrun
            rcases he with he | he | he <;> rw [he] at h2 <;> exact absurd h2 (by decide)
          · rw [if_neg hrep] at hrun
            cases hloop : Ledger.process_instructions
                { map := aset (l.add_acount_if_absent payer).map payer
                    (payer_balance - TRANSACTION_FEE)
                  previous_transactions :=
                    (l.add_acount_if_absent payer).previous_transactions ++ [t.hash]
                  published_accounts := (l.add_acount_if_absent payer).published_accounts
                  root_accounts := (l.add_acount_if_absent payer).root_accounts }
                t.message.instructions t.message depth with
            | none => rw [hloop] at hrun; exact absurd hrun (by simp)
            | some pres =>
              rw [hloop] at hrun
              obtain ⟨lp, rr⟩ := pres
              cases rr with
              | ok a => cases a; exact absurd hrun (by simp)
              | err e2 =>
                dsimp only at hrun
                obtain ⟨hm, hs, hpr⟩ := process_instructions_effects t.message depth
                  t.message.instructions
                  { map := aset (l.add_acount_if_absent payer).map payer
                      (payer_balance - TRANSACTION_FEE)
                    previous_transactions :=
                      (l.add_acount_if_absent payer).previous_transactions ++ [t.hash]
                    published_accounts := (l.add_acount_if_absent payer).published_accounts
                    root_accounts := (l.add_acount_if_absent payer).root_accounts }
                  lp (.err e2) hloop
                have hlpprev : lp.previous_transactions =
                    l.previous_transactions ++ [t.hash] := by
                  rw [hpr]
                  show (l.add_acount_if_absent payer).previous_transactions ++ [t.hash] = _
                  rw [add_acount_previous]
                have hl3map : ∀ k, k ∉ t.message.accounts →
                    alook (aset (l.add_acount_if_absent payer).map payer
                      (payer_balance - TRANSACTION_FEE)) k = alook l.map k := by
                  intro k hk
                  have hkp : ¬ k = payer := fun hh => hk (by rw [hh]; exact hpm)
                  rw [alook_aset, if_neg hkp, alook_add_acount, if_neg hkp]
                have hl3some : ∀ k, (alook l.map k).isSome →
                    (alook (aset (l.add_acount_if_absent payer).map payer
                      (payer_balance - TRANSACTION_FEE)) k).isSome := by
                  intro k hk
                  apply aset_isSome
                  rw [alook_add_acount]
                  by_cases hkp : k = payer
                  · rw [if_pos hkp]; simp
                  · rw [if_neg hkp]; exact hk
                obtain ⟨lr, hres, hresk, hresp⟩ := restoreSnapshot_restores l
                  (takeSnapshot t.message.accounts l.map).balances lp
                  (takeSnapshot_entries l.map t.message.accounts ⟨[]⟩ (by simp))
                  (by
                    intro k hk
                    have hkacc : k ∉ t.message.accounts := by
                      intro hmem
                      have h6 : alook (takeSnapshot t.message.accounts l.map).balances k =
                          some (alook l.map k) := takeSnapshot_mem _ _ _ hmem
                      have h7 : alook (takeSnapshot t.message.accounts l.map).balances k =
                          none := (alook_eq_none_iff _ _).mpr hk
                      rw [h6] at h7
                      cases h7
                    exact (hm k hkacc).trans (hl3map k hkacc))
                  (fun k hk => hs k (hl3some k hk))
                unfold Ledger.rollback_to_snapshot at hrun
                rw [hres] at hrun
                dsimp only at hrun
                simp at hrun
                obtain ⟨h1, _⟩ := hrun
                subst h1
                refine ⟨hresk, ?_⟩
                show sremove lr.previous_transactions t.hash = l.previous_transactions
                rw [hresp, hlpprev]
                exact sremove_append_self _ _ hnotrep

/-- Witness for `c3_instruction_failure_full_revert` at the scenario of
claim C4 (the second instruction overdraws). -/
theorem c3_witness :
    Ledger.process_transaction ⟨fun _ => true, fun _ => true⟩
        ⟨[(1, 100000)], [], [(1, 0)], [1]⟩
        ⟨7, ⟨[1, 2], [⟨[0, 1], 10000⟩, ⟨[0, 1], 100001⟩]⟩⟩ 1 =
      some (⟨[(1, 100000)], [], [(1, 0)], [1]⟩,
        .err "The sender does not have enoug MiniLas to perform the instruction") ∧
    (∀ k, alook (Ledger.mk [(1, 100000)] [] [(1, 0)] [1]).map k =
      alook (Ledger.mk [(1, 100000)] [] [(1, 0)] [1]).map k) := by
  refine ⟨by decide, ?_⟩
  exact (c3_instruction_failure_full_revert ⟨fun _ => true, fun _ => true⟩
    ⟨[(1, 100000)], [], [(1, 0)], [1]⟩
    ⟨7, ⟨[1, 2], [⟨[0, 1], 10000⟩, ⟨[0, 1], 100001⟩]⟩⟩ 1
    ⟨[(1, 100000)], [], [(1, 0)], [1]⟩
    "The sender does not have enoug MiniLas to perform the instruction"
    (by decide) (Or.inr (Or.inr rfl))).1

/-! ### List and association-list lemmas for the round-trip proofs -/

theorem set_concat {α : Type} (xs : List α) (x y : α) :
    (xs ++ [x]).set xs.length y = xs ++ [y] := by
  induction xs with
  | nil => rfl
  | cons a rest ih => simp [List.set, ih]

theorem getD_concat {α : Type} (xs : List α) (x d : α) :
    (xs ++ [x]).getD xs.length d = x := by
  induction xs with
  | nil => rfl
  | cons a rest ih => simpa [List.getD] using ih

theorem eraseIdx_concat {α : Type} (xs : List α) (x : α) :
    (xs ++ [x]).eraseIdx xs.length = xs := by
  induction xs with
  | nil => rfl
  | cons a rest ih => simp [List.eraseIdx, ih]

theorem aupd_comp {α : Type} (m : List (Nat × α)) (k : Nat) (f g : α → α) :
    aupd (aupd m k f) k g = aupd m k (fun x => g (f x)) := by
  induction m with
  | nil => rfl
  | cons p rest ih =>
      obtain ⟨a, v⟩ := p
      by_cases h : a = k <;> simp [aupd_cons, h, ih]

theorem aset_of_none {α : Type} (m : List (Nat × α)) (k : Nat) (v : α)
    (h : alook m k = none) : aset m k v = m := by
  induction m with
  | nil => rfl
  | cons p rest ih =>
      obtain ⟨a, w⟩ := p
      by_cases hak : a = k
      · subst hak; simp [alook] at h
      · have h2 : alook rest k = none := by simpa [alook, hak] using h
        unfold aset
        rw [aupd_cons, if_neg hak]
        have := ih h2
        unfold aset at this
        rw [this]

theorem aset_self {α : Type} (m : List (Nat × α)) (k : Nat) (v : α)
    (hnd : (m.map Prod.fst).Nodup) (hv : alook m k = some v) : aset m k v = m := by
  induction m with
  | nil => cases hv
  | cons p rest ih =>
      obtain ⟨a, w⟩ := p
      simp only [List.map_cons, List.nodup_cons] at hnd
      by_cases hak : a = k
      · subst hak
        have hw : w = v := by simpa [alook] using hv
        subst hw
        unfold aset
        rw [aupd_cons, if_pos rfl]
        have hnone : alook rest a = none := (alook_eq_none_iff rest a).mpr hnd.1
        have := aset_of_none rest a w hnone
        unfold aset at this
        rw [this]
      · have h2 : alook rest k = some v := by simpa [alook, hak] using hv
        unfold aset
        rw [aupd_cons, if_neg hak]
        have := ih hnd.2 h2
        unfold aset at this
        rw [this]

theorem acontains_aupd {α : Type} (m : List (Nat × α)) (k : Nat) (f : α → α)
    (k' : Nat) : acontains (aupd m k f) k' = acontains m k' := by
  unfold acontains
  rw [alook_aupd]
  by_cases h : k' = k
  · rw [if_pos h, h]
    cases alook m k <;> rfl
  · rw [if_neg h]

/-- Rewarding an existing account and then rolling the reward back restores
the ledger exactly. -/
theorem reward_rollback_id (l : Ledger) (w : Nat) (r : Nat)
    (hwin : acontains l.map w = true) (hnd : (l.map.map Prod.fst).Nodup) :
    (l.reward_winner w r).rollback_reward w r = some l := by
  obtain ⟨v, hv⟩ := (acontains_iff_some _ _).mp hwin
  unfold Ledger.reward_winner
  rw [if_pos hwin]
  unfold Ledger.rollback_reward Ledger.add_acount_if_absent
  dsimp only
  have hc2 : acontains (aupd l.map w (fun m => m + r)) w = true := by
    rw [acontains_aupd]; exact hwin
  rw [if_pos hc2]
  dsimp only
  rw [alook_aupd, if_pos rfl, hv]
  rw [show Option.map (fun m => m + r) (some v) = some (v + r) from rfl]
  dsimp only
  rw [if_neg (Nat.not_lt.mpr (Nat.le_add_left r v))]
  rw [Nat.add_sub_cancel]
  unfold aset
  rw [aupd_comp]
  have : aupd l.map w (fun x => v) = aset l.map w v := rfl
  rw [this, aset_self l.map w v hnd hv]

/-- `update_static_ledger` never changes the static ledger: the current and
the target static pointers are computed from the same `best_path.len()`, so
the replay is empty and the stored ledger is returned unchanged. -/
theorem update_static_id (bc : Blockchain) (oc : SigOracle)
    (hne : bc.best_path ≠ []) :
    bc.update_static_ledger oc = some (bc, .ok ()) := by
  have hlen : 0 < bc.best_path.length := List.length_pos.mpr hne
  have hidx : ((bc.best_path.length : Int)).toNat - 50 < bc.best_path.length := by omega
  obtain ⟨p, hp⟩ : ∃ p,
      bc.best_path.get? ((bc.best_path.length : Int).toNat - 50) = some p :=
    ⟨_, List.get?_eq_get hidx⟩
  have hptr : bc.get_static_block_ptr (bc.best_path.length : Int) = some p := by
    unfold Blockchain.get_static_block_ptr
    rw [if_neg (by omega)]
    exact hp
  unfold Blockchain.update_static_ledger Blockchain.get_static_ledger_of
  rw [hptr]
  dsimp only
  rw [if_pos rfl]

/-! ## Claim C2: error atomicity of `add_block` -/

/-- C2 counterexample: a block that passes `can_block_be_added` but whose
transaction cannot pay the fee makes `add_block` return an error with the
block already inserted in the tree and the payer account created at balance
0 — the blockchain observably changed, refuting the claim that a rejected
block leaves no partial state. -/
theorem c2_error_with_partial_state :
    (add_block 5 oracleTrue 5 chain0 badPayerB).map
        (fun p => p.2) =
      some (.err "Payer does not have enough LAS in account to pay transaction fee") ∧
    (add_block 5 oracleTrue 5 chain0 badPayerB).map
        (fun p => decide (p.1 = chain0)) = some false ∧
    (add_block 5 oracleTrue 5 chain0 badPayerB).map
        (fun p => (p.1.get_block ⟨102, 1⟩).isSome) = some true ∧
    (chain0.get_block ⟨102, 1⟩).isSome = false := by
  refine ⟨by decide, by decide, by decide, by decide⟩

/-- C2 (amended): only an error raised by the pre-insertion validation
`can_block_be_added` leaves the `Blockchain` unchanged; an error raised
after the block has been inserted (a transaction failing during head
extension, or a failed reorg) leaves observable partial state. -/
theorem c2_validation_error_leaves_state_unchanged (fuel : Nat) (oc : SigOracle)
    (now : Nat) (bc : Blockchain) (b : Block) (e : String)
    (hval : bc.can_block_be_added oc now b = some (.err e)) :
    add_block (fuel + 1) oc now bc b = some (bc, .err e) := by
  unfold add_block
  rw [hval]

/-- Witness for `c2_validation_error_leaves_state_unchanged`: a block whose
signature fails verification is rejected with the chain unchanged. -/
theorem c2_witness :
    add_block 3 ⟨fun _ => false, fun _ => false⟩ 5 chain0 extB =
      some (chain0, .err "BadSignature: block signature verification failed") :=
  c2_validation_error_leaves_state_unchanged 2 ⟨fun _ => false, fun _ => false⟩
    5 chain0 extB _ (by decide)

/-! ## Claim C8: extend-head then rollback round trip -/

/-- C8 (amended): `add_block` that extends the head followed by
`rollback_block` restores the state, for a block with no transactions whose
winner already has a balance entry, when no orphan waits on its hash and its
depth equals the number of allocated levels and is at least the best-path
length.  (With transactions the round trip loses the payer fee, because
`rollback_transaction` never restores it.) -/
theorem c8_extend_then_rollback_roundtrip (fuel : Nat) (oc : SigOracle)
    (now : Nat) (bc : Blockchain) (b : Block) (bc1 : Blockchain)
    (par : Block) (head : BlockPtr)
    (hpar : bc.get_parent b = some par)
    (hhead : bc.best_path.getLast? = some head)
    (hparhead : par.ptr = head)
    (htx : b.transactions = [])
    (horph : alook bc.orphans b.hash = none)
    (hwin : acontains bc.dynamic_ledger.map b.draw.signed_by = true)
    (hnd : (bc.dynamic_ledger.map.map Prod.fst).Nodup)
    (hdepth : b.depth = (bc.blocks.length : Int))
    (hbp : (bc.best_path.length : Int) ≤ b.depth)
    (hadd : add_block (fuel + 1) oc now bc b = some (bc1, .ok ())) :
    bc1.rollback_block oc b.ptr = some (bc, .ok ()) := by
  have hd0 : ¬ b.depth < 0 := by omega
  have hd1 : 0 < b.depth := by
    by_contra hle
    push_neg at hle
    have hneg : b.depth - 1 < 0 := by omega
    unfold Blockchain.get_parent Blockchain.get_block at hpar
    rw [if_pos hneg] at hpar
    cases hpar
  have hdn : b.depth.toNat = bc.blocks.length := by omega
  -- the state right after the head extension
  set bcExt : Blockchain :=
    { bc with
        blocks := bc.blocks ++ [[(b.hash, b)]]
        best_path := bc.best_path ++ [b.ptr]
        dynamic_ledger :=
          bc.dynamic_ledger.reward_winner b.draw.signed_by
            (Blockchain.calculate_reward b) } with hbcExt
  have hcan : bc.can_block_be_added oc now b = some (.ok ()) := by
    cases hc : bc.can_block_be_added oc now b with
    | none =>
        unfold add_block at hadd
        dsimp only at hadd
        rw [hc] at hadd
        exact absurd hadd (by simp)
    | some r =>
        cases r with
        | ok a => cases a; rfl
        | err e =>
            unfold add_block at hadd
            dsimp only at hadd
            rw [hc] at hadd
            dsimp only at hadd
            simp at hadd
  have hcomp : add_block (fuel + 1) oc now bc b = some (bcExt, .ok ()) := by
    unfold add_block
    dsimp only
    rw [hcan]
    dsimp only
    rw [hpar]
    dsimp only
    rw [if_neg hd0]
    rw [hdn]
    rw [show growTo bc.blocks (bc.blocks.length + 1) = bc.blocks ++ [[]] from by
      unfold growTo; simp]
    rw [getD_concat]
    rw [show ainsert ([] : List (Nat × Block)) b.hash b = [(b.hash, b)] from rfl]
    rw [set_concat]
    have hparent2 :
        ({ bc with blocks := bc.blocks ++ [[(b.hash, b)]] } : Blockchain).get_parent b
          = some par := by
      unfold Blockchain.get_parent Blockchain.get_block at hpar ⊢
      rw [if_neg (by omega : ¬ b.depth - 1 < 0)] at hpar ⊢
      dsimp only
      rw [List.get?_append (by omega : (b.depth - 1).toNat < bc.blocks.length)]
      exact hpar
    rw [hparent2]
    dsimp only
    rw [hhead]
    dsimp only
    rw [if_pos hparhead.symm]
    rw [htx]
    rw [show proccess_transactions oc bc.dynamic_ledger [] b.depth =
      some (bc.dynamic_ledger, .ok ()) from rfl]
    dsimp only
    rw [horph]
    dsimp only
    rw [update_static_id _ oc (by simp)]
    rfl
  rw [hcomp] at hadd
  have hbc1 : bc1 = bcExt := by
    simpa using hadd.symm
  subst hbc1
  have hne : bc.best_path ≠ [] := by
    intro h; rw [h] at hhead; cases hhead
  unfold Blockchain.rollback_block
  rw [hbcExt]
  dsimp only
  rw [List.getLast?_concat]
  dsimp only
  rw [if_neg (fun h => h rfl)]
  rw [List.dropLast_concat]
  unfold Blockchain.get_block
  dsimp only [Block.ptr]
  rw [if_neg hd0]
  rw [hdn, List.get?_concat_length]
  dsimp only
  rw [show alook [(b.hash, b)] b.hash = some b from by simp [alook]]
  dsimp only
  rw [htx]
  rw [show ([] : List Transaction).reverse = [] from rfl]
  simp only [Blockchain.rollbackTxsIntoBuffer]
  rw [reward_rollback_id bc.dynamic_ledger b.draw.signed_by
    (Blockchain.calculate_reward b) hwin hnd]
  dsimp only
  rw [if_neg hd0]
  rw [hdn, List.get?_concat_length]
  dsimp only
  rw [if_neg (fun h => h (by simp [acontains, alook]))]
  rw [show aerase [(b.hash, b)] b.hash = [] from by simp [aerase]]
  rw [set_concat]
  rw [if_pos ⟨hbp, rfl⟩]
  rw [eraseIdx_concat]
  rw [update_static_id _ oc hne]

/-- C8 counterexample: for a head-extending block that carries one
transaction (a self-transfer by the root account), `add_block` succeeds and
`rollback_block` succeeds, but the state is not restored: the payer is left
`TRANSACTION_FEE` short (the fee deducted by `process_transaction` is
credited to the winner inside the block reward and taken back by
`rollback_reward`, while `rollback_transaction` never refunds it), and the
transaction reappears in the mempool. -/
theorem c8_counterexample :
    (add_block 5 oracleTrue 5 chain0 feeB).map (fun p => p.2) = some (.ok ()) ∧
    ((add_block 5 oracleTrue 5 chain0 feeB).bind
        (fun p => p.1.rollback_block oracleTrue feeB.ptr)).map (fun p => p.2) =
      some (.ok ()) ∧
    ((add_block 5 oracleTrue 5 chain0 feeB).bind
        (fun p => p.1.rollback_block oracleTrue feeB.ptr)).map
        (fun p => decide (p.1 = chain0)) = some false ∧
    ((add_block 5 oracleTrue 5 chain0 feeB).bind
        (fun p => p.1.rollback_block oracleTrue feeB.ptr)).map
        (fun p => p.1.dynamic_ledger.get_balance 1) =
      some (ROOT_AMOUNT - TRANSACTION_FEE) ∧
    chain0.dynamic_ledger.get_balance 1 = ROOT_AMOUNT := by
  refine ⟨by decide, by decide, by decide, by decide, by decide⟩

/-- Witness for `c8_extend_then_rollback_roundtrip` at the concrete
transaction-free extension of the genesis chain. -/
theorem c8_witness :
    Blockchain.rollback_block chain1 oracleTrue extB.ptr = some (chain0, .ok ()) :=
  c8_extend_then_rollback_roundtrip 4 oracleTrue 5 chain0 extB chain1 genesisB
    ⟨100, 0⟩ (by decide) (by decide) (by decide) rfl (by decide) (by decide)
    (by decide) (by decide) (by decide) (by decide)

/-! ## Claim C5: the winning predicate -/

/-- C5: `is_winner(ledger, draw, wallet)` returns true if and only if the
wallet can stake in that ledger and, with `B` the balance of the wallet,
`T` the total money, `M = 2^256` and `h = HARDNESS = 10421·10^73`, the exact
integer inequality `draw.value · (h·T + B·(M − h)) > h·T·M` holds. -/
theorem c5_is_winner_characterization (l : Ledger) (d : Draw) (w : Nat) :
    is_winner l d w = true ↔
      (l.can_stake_depthless w = true ∧
        d.value * (10421 * 10 ^ 73 * l.get_total_money_in_ledger +
            l.get_balance w * (2 ^ 256 - 10421 * 10 ^ 73)) >
          10421 * 10 ^ 73 * l.get_total_money_in_ledger * 2 ^ 256) := by
  unfold is_winner
  by_cases h : l.can_stake_depthless w = true <;> simp [h]

/-! ## Claim C6: the staking predicate of the ledger -/

/-- C6: `can_stake` returns true for every root account; for a non-root
account queried at depth `d` it returns true if and only if the account is
published and `d` minus the recorded publication depth exceeds
`2 · SEED_AGE`. -/
theorem c6_can_stake_characterization (l : Ledger) (a : Nat) (d : Int) :
    (a ∈ l.root_accounts → l.can_stake a d = true) ∧
    (a ∉ l.root_accounts →
      (l.can_stake a d = true ↔
        ∃ pd, alook l.published_accounts a = some pd ∧ d - pd > 2 * SEED_AGE)) := by
  constructor
  · intro h; simp [Ledger.can_stake, h]
  · intro h
    simp only [Ledger.can_stake, if_neg h]
    cases hpub : alook l.published_accounts a <;> simp [hpub]

/-- Witness for `c6_can_stake_characterization`: a concrete root account can
always stake, and a concrete published account can stake 101 blocks after
publication at depth 0. -/
theorem c6_witness :
    Ledger.can_stake ⟨[], [], [(2, 0)], [1]⟩ 1 7 = true ∧
    Ledger.can_stake ⟨[], [], [(2, 0)], [1]⟩ 2 101 = true := by
  refine ⟨(c6_can_stake_characterization ⟨[], [], [(2, 0)], [1]⟩ 1 7).1 (by decide), ?_⟩
  exact ((c6_can_stake_characterization ⟨[], [], [(2, 0)], [1]⟩ 2 101).2
    (by decide)).2 ⟨0, by decide, by decide⟩

/-! ## Claim C7: the block ordering -/

/-- C7 (code bug): the duplicated transaction-count comparison in the
`PartialOrd` implementation lets two distinct blocks each compare greater
than the other — with equal timeslots, the block with one transaction and
hash 1 compares greater than the block with no transactions and hash 2, and
vice versa — so the comparison is not a strict total order. -/
theorem c7_ordering_not_antisymmetric :
    blockGT ⟨5, 0, 1, [], ⟨0, 0, 0, 0, ⟨⟨0, 0⟩⟩⟩, 0, 2⟩
        ⟨5, 0, 1, [⟨0, ⟨[], []⟩⟩], ⟨0, 0, 0, 0, ⟨⟨0, 0⟩⟩⟩, 0, 1⟩ = true ∧
    blockGT ⟨5, 0, 1, [⟨0, ⟨[], []⟩⟩], ⟨0, 0, 0, 0, ⟨⟨0, 0⟩⟩⟩, 0, 1⟩
        ⟨5, 0, 1, [], ⟨0, 0, 0, 0, ⟨⟨0, 0⟩⟩⟩, 0, 2⟩ = true := by
  decide

/-! ## Claim C10: the unchecked `best_path` index in `check_seed` -/

/-- C10: for a block of depth at least `SEED_AGE`, `check_seed` indexes
`best_path[depth − SEED_AGE]` without a bounds check: when
`depth < SEED_AGE` or `depth − SEED_AGE < len(best_path)` the lookup is in
range and `check_seed` returns a typed result, while a block more than
`SEED_AGE` beyond the head makes the index out of bounds — a panic (`none`)
rather than a typed error — and `can_block_be_added` inherits the panic. -/
theorem c10_check_seed_totality (bc : Blockchain) (b : Block) (oc : SigOracle)
    (now : Nat) (hne : bc.best_path ≠ []) :
    ((b.depth < SEED_AGE ∨ b.depth - SEED_AGE < (bc.best_path.length : Int)) →
        bc.check_seed b ≠ none) ∧
    (SEED_AGE ≤ b.depth → (bc.best_path.length : Int) ≤ b.depth - SEED_AGE →
        bc.check_seed b = none) ∧
    (oc.blockSig b = true → b.transactions = [] → SEED_AGE ≤ b.depth →
      (bc.best_path.length : Int) ≤ b.depth - SEED_AGE →
        bc.can_block_be_added oc now b = none) := by
  have hlen0 : 0 < bc.best_path.length := List.length_pos.mpr hne
  refine ⟨?_, ?_, ?_⟩
  · intro hin
    by_cases hd : b.depth < SEED_AGE
    · obtain ⟨p, hp⟩ : ∃ p, bc.best_path.get? 0 = some p := by
        cases hbp : bc.best_path with
        | nil => exact absurd hbp hne
        | cons q rest => exact ⟨q, by simp⟩
      simp only [Blockchain.check_seed, if_pos hd, hp]
      cases hgb : bc.get_block p <;> simp <;> split <;> simp
    · have h2 : b.depth - SEED_AGE < (bc.best_path.length : Int) := hin.resolve_left hd
      have hidx : (b.depth - SEED_AGE).toNat < bc.best_path.length := by omega
      obtain ⟨p, hp⟩ : ∃ p, bc.best_path.get? (b.depth - SEED_AGE).toNat = some p :=
        ⟨_, List.get?_eq_get hidx⟩
      simp only [Blockchain.check_seed, if_neg hd, hp]
      cases hgb : bc.get_block p <;> simp <;> split <;> simp
  · intro h1 h2
    have hd : ¬ b.depth < SEED_AGE := by omega
    have hidx : bc.best_path.length ≤ (b.depth - SEED_AGE).toNat := by omega
    have hp : bc.best_path[(b.depth - SEED_AGE).toNat]? = none :=
      List.getElem?_eq_none hidx
    simp [Blockchain.check_seed, if_neg hd, hp]
  · intro hsig htx h1 h2
    have hd : ¬ b.depth < SEED_AGE := by omega
    have hidx : bc.best_path.length ≤ (b.depth - SEED_AGE).toNat := by omega
    have hp : bc.best_path[(b.depth - SEED_AGE).toNat]? = none :=
      List.getElem?_eq_none hidx
    have hseed : bc.check_seed b = none := by
      simp [Blockchain.check_seed, if_neg hd, hp]
    simp [Blockchain.can_block_be_added, hsig, htx, Blockchain.validateBlockTxs, hseed]

/-- Witness for `c10_check_seed_totality` at a one-block chain: a depth 1
block is in range, a depth 51 block panics. -/
theorem c10_witness :
    Blockchain.check_seed (Blockchain.start [1] ⟨0, 99, 0, [], ⟨0, 0, 0, 0, ⟨⟨99, 0⟩⟩⟩, 0, 100⟩)
        ⟨1, 100, 1, [], ⟨0, 1, 0, 1, ⟨⟨99, 0⟩⟩⟩, 0, 101⟩ ≠ none ∧
    Blockchain.check_seed (Blockchain.start [1] ⟨0, 99, 0, [], ⟨0, 0, 0, 0, ⟨⟨99, 0⟩⟩⟩, 0, 100⟩)
        ⟨1, 100, 51, [], ⟨0, 1, 0, 1, ⟨⟨99, 0⟩⟩⟩, 0, 101⟩ = none := by
  constructor
  · exact (c10_check_seed_totality _ _ ⟨fun _ => true, fun _ => true⟩ 0 (by decide)).1
      (Or.inl (by decide))
  · exact (c10_check_seed_totality _ _ ⟨fun _ => true, fun _ => true⟩ 0 (by decide)).2.1
      (by decide) (by decide)

/-! ## Claim C4: the concrete failed-transaction scenario -/

/-- C4 (code bug): in the spec scenario — account 1 holding exactly
`100_000`, a transaction transferring `10_000` and then `100_001` to the
absent account 2 — `process_transaction` returns the instruction error but
the snapshot restore also reverts the `TRANSACTION_FEE`, leaving account 1
at `100_000` (not `100_000 − TRANSACTION_FEE` as the claim and the in-repo
test `test_transfer_should_rollback` assert) and account 2 absent. -/
theorem c4_fee_is_reverted_not_withheld :
    Ledger.process_transaction ⟨fun _ => true, fun _ => true⟩
        ⟨[(1, 100000)], [], [(1, 0)], [1]⟩
        ⟨7, ⟨[1, 2], [⟨[0, 1], 10000⟩, ⟨[0, 1], 100001⟩]⟩⟩ 1 =
      some (⟨[(1, 100000)], [], [(1, 0)], [1]⟩,
        .err "The sender does not have enoug MiniLas to perform the instruction") ∧
    Ledger.get_balance ⟨[(1, 100000)], [], [(1, 0)], [1]⟩ 1 = 100000 ∧
    Ledger.get_balance ⟨[(1, 100000)], [], [(1, 0)], [1]⟩ 2 = 0 := by
  refine ⟨by decide, by decide, by decide⟩

/-! ## Claim C9: `find_common_ancestor` -/

/-- A successful association-list lookup is a membership. -/
theorem alook_mem {α : Type} {m : List (Nat × α)} {k : Nat} {v : α}
    (h : alook m k = some v) : (k, v) ∈ m := by
  induction m with
  | nil => simp [alook] at h
  | cons p rest ih =>
      obtain ⟨k2, v2⟩ := p
      by_cases hk : k2 = k
      · rw [show alook ((k2, v2) :: rest) k = if k2 = k then some v2 else alook rest k from rfl,
          if_pos hk] at h
        injection h with h
        subst hk
        subst h
        exact List.mem_cons_self _ _
      · rw [show alook ((k2, v2) :: rest) k = if k2 = k then some v2 else alook rest k from rfl,
          if_neg hk] at h
        exact List.mem_cons_of_mem _ (ih h)

/-- On a consistent tree, a resolved block carries the hash and depth of the
pointer it was fetched through. -/
theorem get_block_shape {bc : Blockchain} (hc : blocksConsistent bc)
    {p : BlockPtr} {blk : Block} (h : bc.get_block p = some blk) :
    blk.hash = p.hash ∧ blk.depth = p.depth ∧ 0 ≤ p.depth := by
  unfold Blockchain.get_block at h
  by_cases hneg : p.depth < 0
  · rw [if_pos hneg] at h
    cases h
  · rw [if_neg hneg] at h
    cases hlvl : bc.blocks.get? p.depth.toNat with
    | none => rw [hlvl] at h; cases h
    | some lvl =>
        rw [hlvl] at h
        dsimp only at h
        have hm := hc _ _ hlvl _ (alook_mem h)
        refine ⟨hm.1, ?_, by omega⟩
        rw [hm.2]
        exact Int.toNat_of_nonneg (by omega)

/-- On a consistent tree, a parent pointer sits exactly one level up. -/
theorem parentPtr_depth {bc : Blockchain} (hc : blocksConsistent bc)
    {p q : BlockPtr} (h : bc.parentPtr p = some q) :
    q.depth = p.depth - 1 ∧ 0 ≤ q.depth := by
  unfold Blockchain.parentPtr at h
  cases hg : bc.get_parent_from_ptr p with
  | none => rw [hg] at h; cases h
  | some blk2 =>
      rw [hg] at h
      dsimp only [Option.map] at h
      injection h with h
      unfold Blockchain.get_parent_from_ptr at hg
      cases hb : bc.get_block p with
      | none => rw [hb] at hg; cases hg
      | some blk =>
          rw [hb] at hg
          dsimp only at hg
          unfold Blockchain.get_parent at hg
          have h1 := get_block_shape hc hb
          have h2 := get_block_shape hc hg
          have e1 : blk2.depth = blk.depth - 1 := h2.2.1
          have e2 : (0 : Int) ≤ blk.depth - 1 := h2.2.2
          have e3 : blk.depth = p.depth := h1.2.1
          subst h
          constructor
          · show blk2.depth = p.depth - 1
            omega
          · show (0 : Int) ≤ blk2.depth
            omega

/-- Each parent step decreases the depth by one, so `n` steps by `n`. -/
theorem iterParent_depth {bc : Blockchain} (hc : blocksConsistent bc) :
    ∀ {n : Nat} {p a : BlockPtr}, iterParent bc n p = some a →
      a.depth = p.depth - n := by
  intro n
  induction n with
  | zero =>
      intro p a h
      injection h with h
      subst h
      simp
  | succ m ih =>
      intro p a h
      unfold iterParent at h
      cases hq : bc.parentPtr p with
      | none => rw [hq] at h; cases h
      | some q =>
          rw [hq] at h
          dsimp only at h
          have h1 := (parentPtr_depth hc hq).1
          have h2 := ih h
          omega

/-- Splitting an iterated parent walk. -/
theorem iterParent_add (bc : Blockchain) :
    ∀ (m n : Nat) (p : BlockPtr),
      iterParent bc (m + n) p = (iterParent bc m p).bind (iterParent bc n) := by
  intro m
  induction m with
  | zero =>
      intro n p
      rw [Nat.zero_add]
      rfl
  | succ m ih =>
      intro n p
      rw [Nat.succ_add]
      cases hq : bc.parentPtr p with
      | none => simp [iterParent, hq]
      | some q =>
          simp only [iterParent, hq]
          exact ih n q

theorem isAncestor_refl (bc : Blockchain) (p : BlockPtr) : IsAncestor bc p p :=
  ⟨0, rfl⟩

/-- An ancestor of the parent is an ancestor. -/
theorem isAncestor_step {bc : Blockchain} {p q a : BlockPtr}
    (hpar : bc.parentPtr p = some q) (h : IsAncestor bc a q) : IsAncestor bc a p := by
  obtain ⟨n, hn⟩ := h
  refine ⟨n + 1, ?_⟩
  simp only [iterParent, hpar]
  exact hn

/-- A proper ancestor is an ancestor of the parent. -/
theorem isAncestor_unstep {bc : Blockchain} {p q a : BlockPtr}
    (hpar : bc.parentPtr p = some q) (h : IsAncestor bc a p) (hne : a ≠ p) :
    IsAncestor bc a q := by
  obtain ⟨n, hn⟩ := h
  cases n with
  | zero =>
      injection hn with hn
      exact absurd hn.symm hne
  | succ m =>
      refine ⟨m, ?_⟩
      simp only [iterParent, hpar] at hn
      exact hn

theorem isAncestor_depth_le {bc : Blockchain} (hc : blocksConsistent bc)
    {a p : BlockPtr} (h : IsAncestor bc a p) : a.depth ≤ p.depth := by
  obtain ⟨n, hn⟩ := h
  have := iterParent_depth hc hn
  omega

/-- On a consistent tree, an ancestor at the same depth is the node itself. -/
theorem isAncestor_same_depth {bc : Blockchain} (hc : blocksConsistent bc)
    {a p : BlockPtr} (h : IsAncestor bc a p) (hd : a.depth = p.depth) : a = p := by
  obtain ⟨n, hn⟩ := h
  have hdep := iterParent_depth hc hn
  have hn0 : n = 0 := by omega
  subst hn0
  injection hn with hn
  exact hn.symm

theorem isAncestor_trans {bc : Blockchain} {a b p : BlockPtr}
    (h1 : IsAncestor bc b p) (h2 : IsAncestor bc a b) : IsAncestor bc a p := by
  obtain ⟨m, hm⟩ := h1
  obtain ⟨n, hn⟩ := h2
  refine ⟨m + n, ?_⟩
  rw [iterParent_add, hm]
  exact hn

/-- The ancestors of a node form a chain: the shallower of two ancestors is
an ancestor of the deeper one. -/
theorem isAncestor_of_depth_le {bc : Blockchain} (hc : blocksConsistent bc)
    {a b p : BlockPtr} (ha : IsAncestor bc a p) (hb : IsAncestor bc b p)
    (hd : a.depth ≤ b.depth) : IsAncestor bc a b := by
  obtain ⟨n, hn⟩ := ha
  obtain ⟨m, hm⟩ := hb
  have hdn := iterParent_depth hc hn
  have hdm := iterParent_depth hc hm
  have hmn : m ≤ n := by omega
  refine ⟨n - m, ?_⟩
  have h2 : iterParent bc (m + (n - m)) p = some a := by
    rw [Nat.add_sub_cancel' hmn]
    exact hn
  rw [iterParent_add, hm] at h2
  exact h2

/-- The equalizing loop of `find_common_ancestor`: the result is an ancestor
of the start, at depth `bound` if the start was deeper and the start itself
otherwise. -/
theorem walkUpWhile_spec {bc : Blockchain} (hc : blocksConsistent bc) :
    ∀ {fuel : Nat} {bound : Int} {p p0 : BlockPtr},
      bc.walkUpWhile bound fuel p = some p0 →
      IsAncestor bc p0 p ∧
        (bound < p.depth → p0.depth = bound) ∧ (¬ bound < p.depth → p0 = p) := by
  intro fuel
  induction fuel with
  | zero =>
      intro bound p p0 h
      unfold Blockchain.walkUpWhile at h
      by_cases hb : bound < p.depth
      · rw [if_pos hb] at h
        cases h
      · rw [if_neg hb] at h
        injection h with h
        subst h
        exact ⟨isAncestor_refl bc p, fun hlt => absurd hlt hb, fun _ => rfl⟩
  | succ f ih =>
      intro bound p p0 h
      unfold Blockchain.walkUpWhile at h
      by_cases hb : bound < p.depth
      · rw [if_pos hb] at h
        cases hq : bc.parentPtr p with
        | none => rw [hq] at h; cases h
        | some q =>
            rw [hq] at h
            dsimp only at h
            obtain ⟨hanc, hin, hout⟩ := ih h
            have hqd := (parentPtr_depth hc hq).1
            refine ⟨isAncestor_step hq hanc, fun _ => ?_, fun hfalse => absurd hb hfalse⟩
            by_cases hb2 : bound < q.depth
            · exact hin hb2
            · have hpq := hout hb2
              subst hpq
              omega
      · rw [if_neg hb] at h
        injection h with h
        subst h
        exact ⟨isAncestor_refl bc p, fun hlt => absurd hlt hb, fun _ => rfl⟩

/-- The joint walking loop is correct when it succeeds: starting from two
nodes of equal depth it returns a deepest common ancestor. -/
theorem walkTogether_spec {bc : Blockchain} (hc : blocksConsistent bc) :
    ∀ {fuel : Nat} {l r c : BlockPtr}, l.depth = r.depth →
      bc.walkTogether fuel l r = some c →
      IsAncestor bc c l ∧ IsAncestor bc c r ∧
        ∀ a, IsAncestor bc a l → IsAncestor bc a r → a.depth ≤ c.depth := by
  intro fuel
  induction fuel with
  | zero =>
      intro l r c hd h
      unfold Blockchain.walkTogether at h
      by_cases he : l = r
      · subst he
        rw [if_pos rfl] at h
        injection h with h
        subst h
        exact ⟨isAncestor_refl bc l, isAncestor_refl bc l,
          fun a hal _ => isAncestor_depth_le hc hal⟩
      · rw [if_neg he] at h
        cases h
  | succ f ih =>
      intro l r c hd h
      unfold Blockchain.walkTogether at h
      by_cases he : l = r
      · subst he
        rw [if_pos rfl] at h
        injection h with h
        subst h
        exact ⟨isAncestor_refl bc l, isAncestor_refl bc l,
          fun a hal _ => isAncestor_depth_le hc hal⟩
      · rw [if_neg he] at h
        cases hl : bc.parentPtr l with
        | none => rw [hl] at h; dsimp only at h; cases h
        | some lp =>
            rw [hl] at h
            cases hr : bc.parentPtr r with
            | none => rw [hr] at h; dsimp only at h; cases h
            | some rp =>
                rw [hr] at h
                dsimp only at h
                by_cases hz : lp.depth = 0 ∨ rp.depth = 0
                · rw [if_pos hz] at h
                  cases h
                · rw [if_neg hz] at h
                  have hld := (parentPtr_depth hc hl).1
                  have hrd := (parentPtr_depth hc hr).1
                  have hd2 : lp.depth = rp.depth := by omega
                  obtain ⟨hcl, hcr, hdeep⟩ := ih hd2 h
                  refine ⟨isAncestor_step hl hcl, isAncestor_step hr hcr, ?_⟩
                  intro a hal har
                  have hane_l : a ≠ l := by
                    intro hh
                    subst hh
                    exact he (isAncestor_same_depth hc har hd)
                  have hane_r : a ≠ r := by
                    intro hh
                    subst hh
                    exact he (isAncestor_same_depth hc hal hd.symm).symm
                  exact hdeep a (isAncestor_unstep hl hal hane_l)
                    (isAncestor_unstep hr har hane_r)

/-- Soundness of `find_common_ancestor` on a consistent tree: a returned
pointer is a common ancestor of both arguments, and a deepest one. -/
theorem find_common_ancestor_spec {bc : Blockchain} (hc : blocksConsistent bc)
    {fuel : Nat} {l r c : BlockPtr}
    (h : bc.find_common_ancestor fuel l r = some c) :
    IsAncestor bc c l ∧ IsAncestor bc c r ∧
      ∀ a, IsAncestor bc a l → IsAncestor bc a r → a.depth ≤ c.depth := by
  unfold Blockchain.find_common_ancestor at h
  cases h1 : bc.walkUpWhile l.depth fuel r with
  | none => rw [h1] at h; cases h
  | some r0 =>
      rw [h1] at h
      dsimp only at h
      cases h2 : bc.walkUpWhile r0.depth fuel l with
      | none => rw [h2] at h; cases h
      | some l0 =>
          rw [h2] at h
          dsimp only at h
          obtain ⟨hr0anc, hr0in, hr0out⟩ := walkUpWhile_spec hc h1
          obtain ⟨hl0anc, hl0in, hl0out⟩ := walkUpWhile_spec hc h2
          have hcase : l0.depth = l.depth ∨ l0.depth = r.depth := by
            by_cases ha : l.depth < r.depth
            · have hr0d : r0.depth = l.depth := hr0in ha
              have hnb : ¬ r0.depth < l.depth := by omega
              rw [hl0out hnb]
              exact Or.inl rfl
            · have hr0 : r0 = r := hr0out ha
              subst hr0
              by_cases hb : r0.depth < l.depth
              · exact Or.inr (hl0in hb)
              · rw [hl0out hb]
                exact Or.inl rfl
          have hdep : l0.depth = r0.depth := by
            by_cases ha : l.depth < r.depth
            · have hr0d : r0.depth = l.depth := hr0in ha
              have hnb : ¬ r0.depth < l.depth := by omega
              rw [hl0out hnb]
              omega
            · have hr0 : r0 = r := hr0out ha
              subst hr0
              by_cases hb : r0.depth < l.depth
              · exact hl0in hb
              · rw [hl0out hb]
                omega
          obtain ⟨hcl0, hcr0, hdeep⟩ := walkTogether_spec hc hdep h
          refine ⟨isAncestor_trans hl0anc hcl0, isAncestor_trans hr0anc hcr0, ?_⟩
          intro a hal har
          have hadl : a.depth ≤ l.depth := isAncestor_depth_le hc hal
          have hadr : a.depth ≤ r.depth := isAncestor_depth_le hc har
          have hax : a.depth ≤ l0.depth := by
            rcases hcase with hcs | hcs <;> omega
          have hal0 : IsAncestor bc a l0 := isAncestor_of_depth_le hc hal hl0anc hax
          have har0 : IsAncestor bc a r0 := isAncestor_of_depth_le hc har hr0anc (by omega)
          exact hdeep a hal0 har0

/-- The genesis-sibling failure of `find_common_ancestor`: for two distinct
pointers of equal depth whose parents sit at depth 0, the joint walk aborts
(the depth 0 test fires before the equality re-check) and `none` comes
back. -/
theorem fca_siblings_none (bc : Blockchain) (l r gl gr : BlockPtr)
    (hd : l.depth = r.depth) (hne : l ≠ r)
    (hl : bc.parentPtr l = some gl) (hr : bc.parentPtr r = some gr)
    (hz : gl.depth = 0 ∨ gr.depth = 0) (f : Nat) :
    bc.find_common_ancestor (f + 1) l r = none := by
  unfold Blockchain.find_common_ancestor
  have h1 : bc.walkUpWhile l.depth (f + 1) r = some r := by
    unfold Blockchain.walkUpWhile
    rw [if_neg (by omega)]
  rw [h1]
  dsimp only
  have h2 : bc.walkUpWhile r.depth (f + 1) l = some l := by
    unfold Blockchain.walkUpWhile
    rw [if_neg (by omega)]
  rw [h2]
  dsimp only
  unfold Blockchain.walkTogether
  rw [if_neg hne, hl, hr]
  dsimp only
  rw [if_pos hz]

/-- The two-level sibling fixture satisfies the blocks-table invariant. -/
theorem chainSib_consistent : blocksConsistent chainSib := by
  intro d lvl h p hp
  cases d with
  | zero =>
      have h2 : some lvl = some [(100, genesisB)] := h.symm.trans rfl
      injection h2 with h2
      subst h2
      simp only [List.mem_singleton] at hp
      subst hp
      exact ⟨rfl, rfl⟩
  | succ d1 =>
      cases d1 with
      | zero =>
          have h2 : some lvl = some [(101, extB), (105, sibB)] := h.symm.trans rfl
          injection h2 with h2
          subst h2
          simp only [List.mem_cons, List.mem_singleton] at hp
          rcases hp with hp | hp | hp
          · subst hp
            exact ⟨rfl, rfl⟩
          · subst hp
            exact ⟨rfl, rfl⟩
          · cases hp
      | succ d2 =>
          have h2 : chainSib.blocks.get? (d2 + 1 + 1) = none := rfl
          rw [h2] at h
          cases h

/-- C9 (corrected): on a consistent block tree, a successful
`find_common_ancestor` does return a common ancestor of the two pointers
along `prev_hash` links, and a deepest one; but the function is not total
on inputs that have a common ancestor: for any two distinct pointers of
equal depth whose parents sit at depth 0 — in particular two children of
the genesis block, whose only common ancestor genesis is — it returns
`none`, because the joint walk aborts on reaching depth 0 before
re-checking equality of the two sides. -/
theorem c9_find_common_ancestor_characterization (bc : Blockchain)
    (hc : blocksConsistent bc) (fuel : Nat) (l r c : BlockPtr) :
    (bc.find_common_ancestor fuel l r = some c →
      IsAncestor bc c l ∧ IsAncestor bc c r ∧
        ∀ a, IsAncestor bc a l → IsAncestor bc a r → a.depth ≤ c.depth) ∧
    (l.depth = r.depth → l ≠ r →
      ∀ gl gr, bc.parentPtr l = some gl → bc.parentPtr r = some gr →
        gl.depth = 0 ∨ gr.depth = 0 →
        bc.find_common_ancestor (fuel + 1) l r = none) := by
  constructor
  · intro h
    exact find_common_ancestor_spec hc h
  · intro hd hne gl gr hl hr hz
    exact fca_siblings_none bc l r gl gr hd hne hl hr hz fuel

/-- C9 counterexample: in `chainSib` the genesis block (hash 100) is a
common ancestor of its two resolvable depth 1 children (hashes 101 and
105), yet `find_common_ancestor` returns `none` on them even with generous
fuel — the claimed totality on inputs with a common ancestor fails. -/
theorem c9_counterexample :
    chainSib.find_common_ancestor 10 ⟨101, 1⟩ ⟨105, 1⟩ = none ∧
    IsAncestor chainSib ⟨100, 0⟩ ⟨101, 1⟩ ∧
    IsAncestor chainSib ⟨100, 0⟩ ⟨105, 1⟩ ∧
    (chainSib.get_block ⟨101, 1⟩).isSome = true ∧
    (chainSib.get_block ⟨105, 1⟩).isSome = true :=
  ⟨by decide, ⟨1, by decide⟩, ⟨1, by decide⟩, by decide, by decide⟩

/-- Witness for `c9_find_common_ancestor_characterization`: applied to the
consistent fixture `chainSib` and its two depth 1 siblings, the failure
part yields the concrete `none` result. -/
theorem c9_witness :
    chainSib.find_common_ancestor 10 ⟨101, 1⟩ ⟨105, 1⟩ = none :=
  (c9_find_common_ancestor_characterization chainSib chainSib_consistent 9
      ⟨101, 1⟩ ⟨105, 1⟩ ⟨101, 1⟩).2 rfl (by decide) ⟨100, 0⟩ ⟨100, 0⟩
    (by decide) (by decide) (Or.inl rfl)

/-! ## Claim C1: sum and key lemmas on the balance map -/

theorem aupd_of_not_mem {α : Type} (m : List (Nat × α)) (k : Nat) (f : α → α)
    (h : k ∉ m.map Prod.fst) : aupd m k f = m := by
  induction m with
  | nil => rfl
  | cons p rest ih =>
      obtain ⟨k2, v2⟩ := p
      simp only [List.map_cons, List.mem_cons, not_or] at h
      rw [aupd_cons, if_neg (Ne.symm h.1), ih h.2]

theorem keys_aupd {α : Type} (m : List (Nat × α)) (k : Nat) (f : α → α) :
    (aupd m k f).map Prod.fst = m.map Prod.fst := by
  induction m with
  | nil => rfl
  | cons p rest ih =>
      obtain ⟨k2, v2⟩ := p
      rw [aupd_cons]
      by_cases hk : k2 = k
      · rw [if_pos hk]
        simp only [List.map_cons]
        rw [ih]
      · rw [if_neg hk]
        simp only [List.map_cons]
        rw [ih]

theorem sum_snd_aupd (m : List (Nat × Nat)) (k : Nat)
    (f : Nat → Nat) (v : Nat)
    (hnd : (m.map Prod.fst).Nodup) (hv : alook m k = some v) :
    ((aupd m k f).map (fun p => p.2)).sum + v = (m.map (fun p => p.2)).sum + f v := by
  induction m with
  | nil => cases hv
  | cons p rest ih =>
      obtain ⟨k2, v2⟩ := p
      rw [aupd_cons]
      simp only [List.map_cons, List.nodup_cons] at hnd
      by_cases hk : k2 = k
      · rw [if_pos hk]
        have hvv : v = v2 := by
          rw [show alook ((k2, v2) :: rest) k =
              if k2 = k then some v2 else alook rest k from rfl, if_pos hk] at hv
          injection hv with hv
          exact hv.symm
        subst hvv
        subst hk
        rw [aupd_of_not_mem rest k2 f hnd.1]
        simp only [List.map_cons, List.sum_cons]
        omega
      · rw [if_neg hk]
        have hv2 : alook rest k = some v := by
          rw [show alook ((k2, v2) :: rest) k =
              if k2 = k then some v2 else alook rest k from rfl, if_neg hk] at hv
          exact hv
        have := ih hnd.2 hv2
        simp only [List.map_cons, List.sum_cons]
        omega

theorem sum_snd_aset (m : List (Nat × Nat)) (k : Nat) (v w : Nat)
    (hnd : (m.map Prod.fst).Nodup) (hv : alook m k = some v) :
    ((aset m k w).map (fun p => p.2)).sum + v = (m.map (fun p => p.2)).sum + w :=
  sum_snd_aupd m k (fun _ => w) v hnd hv

theorem alook_ainsert_self {α : Type} (m : List (Nat × α)) (k : Nat) (v : α) :
    alook (ainsert m k v) k = some v := by
  unfold ainsert
  by_cases hc : acontains m k
  · rw [if_pos hc, alook_aset, if_pos rfl]
    obtain ⟨w, hw⟩ := (acontains_iff_some _ _).mp hc
    rw [hw]
    rfl
  · rw [if_neg hc, alook_append]
    have hn := (not_acontains_iff_none _ _).mp (Bool.eq_false_iff.mpr hc)
    rw [hn]
    dsimp only
    rw [show alook [(k, v)] k = if k = k then some v else alook ([] : List (Nat × α)) k
        from rfl, if_pos rfl]

theorem alook_ainsert_ne {α : Type} (m : List (Nat × α)) (k : Nat) (v : α) (k2 : Nat)
    (hne : k2 ≠ k) : alook (ainsert m k v) k2 = alook m k2 := by
  unfold ainsert
  by_cases hc : acontains m k
  · rw [if_pos hc, alook_aset, if_neg hne]
  · rw [if_neg hc, alook_append]
    cases ha : alook m k2 with
    | some w => rfl
    | none =>
        dsimp only
        rw [show alook [(k, v)] k2 =
            if k = k2 then some v else alook ([] : List (Nat × α)) k2 from rfl,
          if_neg (fun hh => hne hh.symm)]
        rfl

theorem mem_ainsert {α : Type} (m : List (Nat × α)) (k : Nat) (v : α) (p : Nat × α)
    (hp : p ∈ ainsert m k v) : p = (k, v) ∨ p ∈ m := by
  unfold ainsert at hp
  by_cases hc : acontains m k
  · rw [if_pos hc] at hp
    unfold aset aupd at hp
    obtain ⟨q, hq, hpq⟩ := List.mem_map.mp hp
    by_cases hk : q.1 = k
    · left
      rw [← hpq, if_pos hk, hk]
    · right
      rw [← hpq, if_neg hk]
      exact hq
  · rw [if_neg hc] at hp
    rcases List.mem_append.mp hp with h | h
    · right
      exact h
    · left
      simpa using h

/-! ## Claim C1: money lemmas for the ledger operations -/

theorem total_add_acount (l : Ledger) (a : Nat) :
    (l.add_acount_if_absent a).get_total_money_in_ledger = l.get_total_money_in_ledger := by
  unfold Ledger.add_acount_if_absent Ledger.get_total_money_in_ledger
  split
  · rfl
  · simp

theorem nodup_add_acount (l : Ledger) (a : Nat)
    (h : (l.map.map Prod.fst).Nodup) :
    ((l.add_acount_if_absent a).map.map Prod.fst).Nodup := by
  unfold Ledger.add_acount_if_absent
  by_cases hc : acontains l.map a
  · rw [if_pos hc]
    exact h
  · rw [if_neg hc]
    have hn := (not_acontains_iff_none _ _).mp (Bool.eq_false_iff.mpr hc)
    have hmem := (alook_eq_none_iff _ _).mp hn
    dsimp only
    rw [List.map_append, List.nodup_append]
    refine ⟨h, by simp, ?_⟩
    intro x hx hx2
    simp only [List.map_cons, List.map_nil, List.mem_singleton] at hx2
    subst hx2
    exact hmem hx

theorem total_reward_winner (l : Ledger) (w : Nat) (amt : Nat)
    (hnd : (l.map.map Prod.fst).Nodup) :
    (l.reward_winner w amt).get_total_money_in_ledger = l.get_total_money_in_ledger + amt ∧
    ((l.reward_winner w amt).map.map Prod.fst).Nodup := by
  unfold Ledger.reward_winner
  by_cases hc : acontains l.map w
  · rw [if_pos hc]
    obtain ⟨v, hv⟩ := (acontains_iff_some _ _).mp hc
    have hs := sum_snd_aupd l.map w (fun m => m + amt) v hnd hv
    dsimp only at hs
    constructor
    · unfold Ledger.get_total_money_in_ledger
      dsimp only
      omega
    · dsimp only
      rw [keys_aupd]
      exact hnd
  · rw [if_neg hc]
    have hn := (not_acontains_iff_none _ _).mp (Bool.eq_false_iff.mpr hc)
    have hmem := (alook_eq_none_iff _ _).mp hn
    constructor
    · unfold Ledger.get_total_money_in_ledger
      dsimp only
      simp
    · dsimp only
      rw [List.map_append, List.nodup_append]
      refine ⟨hnd, by simp, ?_⟩
      intro x hx hx2
      simp only [List.map_cons, List.map_nil, List.mem_singleton] at hx2
      subst hx2
      exact hmem hx

theorem rewardTotal_eq (bs : List Block) :
    rewardTotal bs = TRANSACTION_FEE * txTotal bs + BLOCK_REWARD * bs.length := by
  induction bs with
  | nil => simp [rewardTotal, txTotal]
  | cons b rest ih =>
      simp only [rewardTotal, txTotal, List.map_cons, List.sum_cons, List.length_cons] at *
      simp only [Blockchain.calculate_reward]
      simp only [TRANSACTION_FEE, BLOCK_REWARD] at *
      omega

theorem keys_aset {α : Type} (m : List (Nat × α)) (k : Nat) (v : α) :
    (aset m k v).map Prod.fst = m.map Prod.fst :=
  keys_aupd m k (fun _ => v)

theorem process_instruction_money (l : Ledger) (ix : CompiledInstruction)
    (msg : TransactionMessage) (depth : Int) (l2 : Ledger)
    (hnd : (l.map.map Prod.fst).Nodup)
    (h : l.process_instruction ix msg depth = some (l2, .ok ())) :
    l2.get_total_money_in_ledger = l.get_total_money_in_ledger ∧
    (l2.map.map Prod.fst).Nodup := by
  unfold Ledger.process_instruction at h
  cases h0 : ix.account_indices.get? 0 with
  | none => rw [h0] at h; dsimp only at h; exact absurd h (by simp)
  | some fi =>
  rw [h0] at h
  cases h1 : ix.account_indices.get? 1 with
  | none => rw [h1] at h; dsimp only at h; exact absurd h (by simp)
  | some ti =>
  rw [h1] at h
  dsimp only at h
  cases hf : msg.accounts.get? fi with
  | none => rw [hf] at h; dsimp only at h; exact absurd h (by simp)
  | some fromPk =>
  rw [hf] at h; dsimp only at h
  cases ht : msg.accounts.get? ti with
  | none => rw [ht] at h; dsimp only at h; exact absurd h (by simp)
  | some toPk =>
  rw [ht] at h; dsimp only at h
  set la := (l.add_acount_if_absent fromPk).add_acount_if_absent toPk with hla
  have hndla : (la.map.map Prod.fst).Nodup := by
    rw [hla]
    exact nodup_add_acount _ _ (nodup_add_acount _ _ hnd)
  have htotla : la.get_total_money_in_ledger = l.get_total_money_in_ledger := by
    rw [hla, total_add_acount, total_add_acount]
  cases hfb : alook la.map fromPk with
  | none => rw [hfb] at h; exact absurd h (by simp)
  | some fb =>
  rw [hfb] at h
  dsimp only at h
  by_cases hlt : fb < ix.amount
  · rw [if_pos hlt] at h
    exact absurd h (by simp)
  · rw [if_neg hlt] at h
    cases htb : alook (aset la.map fromPk (fb - ix.amount)) toPk with
    | none => rw [htb] at h; exact absurd h (by simp)
    | some tb =>
    rw [htb] at h
    dsimp only at h
    have hmap2 : l2.map =
        aset (aset la.map fromPk (fb - ix.amount)) toPk (tb + ix.amount) := by
      by_cases hpub : (¬ acontains la.published_accounts toPk = true ∧
          MINIMUM_STAKE_AMOUNT ≤ tb + ix.amount)
      · rw [if_pos hpub] at h
        simp only [Option.some_inj, Prod.mk.injEq] at h
        obtain ⟨h2, _⟩ := h
        rw [← h2]
      · rw [if_neg hpub] at h
        simp only [Option.some_inj, Prod.mk.injEq] at h
        obtain ⟨h2, _⟩ := h
        rw [← h2]
    have hnd1 : ((aset la.map fromPk (fb - ix.amount)).map Prod.fst).Nodup := by
      rw [keys_aset]
      exact hndla
    have hs1 := sum_snd_aset la.map fromPk fb (fb - ix.amount) hndla hfb
    have hs2 := sum_snd_aset (aset la.map fromPk (fb - ix.amount)) toPk tb
      (tb + ix.amount) hnd1 htb
    constructor
    · unfold Ledger.get_total_money_in_ledger at htotla ⊢
      rw [hmap2]
      have hle : ix.amount ≤ fb := Nat.not_lt.mp hlt
      omega
    · rw [hmap2, keys_aset, keys_aset]
      exact hndla

theorem process_instructions_money (msg : TransactionMessage) (depth : Int) :
    ∀ (ixs : List CompiledInstruction) (l l2 : Ledger),
      Ledger.process_instructions l ixs msg depth = some (l2, .ok ()) →
      (l.map.map Prod.fst).Nodup →
      l2.get_total_money_in_ledger = l.get_total_money_in_ledger ∧
      (l2.map.map Prod.fst).Nodup := by
  intro ixs
  induction ixs with
  | nil =>
      intro l l2 h hnd
      unfold Ledger.process_instructions at h
      simp only [Option.some_inj, Prod.mk.injEq] at h
      obtain ⟨h2, _⟩ := h
      subst h2
      exact ⟨rfl, hnd⟩
  | cons ix rest ih =>
      intro l l2 h hnd
      unfold Ledger.process_instructions at h
      cases hp : l.process_instruction ix msg depth with
      | none => rw [hp] at h; cases h
      | some pr =>
          obtain ⟨l1, r1⟩ := pr
          rw [hp] at h
          cases r1 with
          | err e => dsimp only at h; exact absurd h (by simp)
          | ok u =>
              cases u
              dsimp only at h
              obtain ⟨e1, n1⟩ := process_instruction_money l ix msg depth l1 hnd hp
              obtain ⟨e2, n2⟩ := ih l1 l2 h n1
              exact ⟨e2.trans e1, n2⟩

theorem process_transaction_money (oc : SigOracle) (l : Ledger) (t : Transaction)
    (depth : Int) (l2 : Ledger)
    (h : l.process_transaction oc t depth = some (l2, .ok ()))
    (hnd : (l.map.map Prod.fst).Nodup) :
    l2.get_total_money_in_ledger + TRANSACTION_FEE = l.get_total_money_in_ledger ∧
    (l2.map.map Prod.fst).Nodup := by
  unfold Ledger.process_transaction at h
  cases hval : l.is_transaction_valid oc t with
  | err e => rw [hval] at h; dsimp only at h; exact absurd h (by simp)
  | ok u =>
  cases u
  rw [hval] at h
  dsimp only at h
  cases hacc : t.message.accounts.get? 0 with
  | none => rw [hacc] at h; dsimp only at h; cases h
  | some payer =>
  rw [hacc] at h
  dsimp only at h
  set la := l.add_acount_if_absent payer with hla
  have hndla : (la.map.map Prod.fst).Nodup := by
    rw [hla]
    exact nodup_add_acount l payer hnd
  have htotla : la.get_total_money_in_ledger = l.get_total_money_in_ledger := by
    rw [hla]
    exact total_add_acount l payer
  cases hpb : alook la.map payer with
  | none => rw [hpb] at h; dsimp only at h; cases h
  | some pb =>
  rw [hpb] at h
  dsimp only at h
  by_cases hfee : ¬ pb > TRANSACTION_FEE
  · rw [if_pos hfee] at h
    exact absurd h (by simp)
  · rw [if_neg hfee] at h
    set lb := ({ la with map := aset la.map payer (pb - TRANSACTION_FEE) } : Ledger) with hlb
    have hlbmap : lb.map = aset la.map payer (pb - TRANSACTION_FEE) := by rw [hlb]
    have hndlb : (lb.map.map Prod.fst).Nodup := by
      rw [hlbmap, keys_aset]
      exact hndla
    have hs1 := sum_snd_aset la.map payer pb (pb - TRANSACTION_FEE) hndla hpb
    by_cases hprev : t.hash ∈ lb.previous_transactions
    · rw [if_pos hprev] at h
      exact absurd h (by simp)
    · rw [if_neg hprev] at h
      set lc := ({ lb with previous_transactions :=
        lb.previous_transactions ++ [t.hash] } : Ledger) with hlc
      have hlcmap : lc.map = lb.map := by rw [hlc]
      have hndlc : (lc.map.map Prod.fst).Nodup := by
        rw [hlcmap]
        exact hndlb
      cases hpi : Ledger.process_instructions lc t.message.instructions t.message depth with
      | none => rw [hpi] at h; dsimp only at h; cases h
      | some pr =>
          obtain ⟨l3, r3⟩ := pr
          rw [hpi] at h
          cases r3 with
          | ok u2 =>
              cases u2
              dsimp only at h
              simp only [Option.some_inj, Prod.mk.injEq] at h
              obtain ⟨h2, _⟩ := h
              subst h2
              obtain ⟨e1, n1⟩ := process_instructions_money t.message depth
                t.message.instructions lc l3 hpi hndlc
              refine ⟨?_, n1⟩
              have hgt : pb > TRANSACTION_FEE := not_not.mp hfee
              unfold Ledger.get_total_money_in_ledger at e1 htotla ⊢
              rw [hlcmap, hlbmap] at e1
              omega
          | err e =>
              dsimp only at h
              cases hrb : l3.rollback_to_snapshot
                  (takeSnapshot t.message.accounts l.map) t with
              | none => rw [hrb] at h; dsimp only at h; cases h
              | some l4 =>
                  rw [hrb] at h
                  dsimp only at h
                  exact absurd h (by simp)

theorem proccess_transactions_money (oc : SigOracle) (depth : Int) :
    ∀ (txs : List Transaction) (l l2 : Ledger),
      proccess_transactions oc l txs depth = some (l2, .ok ()) →
      (l.map.map Prod.fst).Nodup →
      l2.get_total_money_in_ledger + TRANSACTION_FEE * txs.length =
        l.get_total_money_in_ledger ∧
      (l2.map.map Prod.fst).Nodup := by
  intro txs
  induction txs with
  | nil =>
      intro l l2 h hnd
      unfold proccess_transactions at h
      simp only [Option.some_inj, Prod.mk.injEq] at h
      obtain ⟨h2, _⟩ := h
      subst h2
      exact ⟨by simp, hnd⟩
  | cons t rest ih =>
      intro l l2 h hnd
      unfold proccess_transactions at h
      cases hp : l.process_transaction oc t depth with
      | none => rw [hp] at h; cases h
      | some pr =>
          obtain ⟨l1, r1⟩ := pr
          rw [hp] at h
          cases r1 with
          | err e => dsimp only at h; exact absurd h (by simp)
          | ok u =>
              cases u
              dsimp only at h
              obtain ⟨e1, n1⟩ := process_transaction_money oc l t depth l1 hp hnd
              obtain ⟨e2, n2⟩ := ih l1 l2 h n1
              refine ⟨?_, n2⟩
              simp only [List.length_cons]
              have hmul : TRANSACTION_FEE * (rest.length + 1) =
                  TRANSACTION_FEE * rest.length + TRANSACTION_FEE := by ring
              omega

theorem can_block_be_added_sig (bc : Blockchain) (oc : SigOracle) (now : Nat)
    (block : Block) (h : bc.can_block_be_added oc now block = some (.ok ())) :
    oc.blockSig block = true := by
  unfold Blockchain.can_block_be_added at h
  by_cases hs : oc.blockSig block = true
  · exact hs
  · rw [if_pos hs] at h
    exact absurd h (by simp)

theorem update_static_shape (bc : Blockchain) (oc : SigOracle) (bc2 : Blockchain)
    (r : Res Unit) (h : bc.update_static_ledger oc = some (bc2, r)) :
    bc2 = bc ∧ r = .ok () := by
  unfold Blockchain.update_static_ledger Blockchain.get_static_ledger_of at h
  cases hg : bc.get_static_block_ptr (bc.best_path.length : Int) with
  | none => rw [hg] at h; dsimp only at h; cases h
  | some p =>
      rw [hg] at h
      dsimp only at h
      rw [if_pos rfl] at h
      dsimp only at h
      simp only [Option.some_inj, Prod.mk.injEq] at h
      obtain ⟨h1, h2⟩ := h
      constructor
      · rw [← h1]
      · exact h2.symm

theorem get?_set_self {α : Type} : ∀ (l : List α) (i : Nat) (x : α), i < l.length →
    (l.set i x).get? i = some x := by
  intro l
  induction l with
  | nil =>
      intro i x h
      simp at h
  | cons a t ih =>
      intro i x h
      cases i with
      | zero => rfl
      | succ j => exact ih j x (Nat.lt_of_succ_lt_succ h)

theorem get?_set_ne {α : Type} : ∀ (l : List α) (i j : Nat) (x : α), i ≠ j →
    (l.set i x).get? j = l.get? j := by
  intro l
  induction l with
  | nil =>
      intro i j x hne
      cases i with
      | zero => rfl
      | succ i2 => rfl
  | cons a t ih =>
      intro i j x hne
      cases i with
      | zero =>
          cases j with
          | zero => exact absurd rfl hne
          | succ j2 => rfl
      | succ i2 =>
          cases j with
          | zero => rfl
          | succ j2 => exact ih i2 j2 x (fun hh => hne (by rw [hh]))

theorem get?_eraseIdx_ge {α : Type} : ∀ (l : List α) (i j : Nat), i ≤ j →
    (l.eraseIdx i).get? j = l.get? (j + 1) := by
  intro l
  induction l with
  | nil =>
      intro i j h
      rfl
  | cons a t ih =>
      intro i j h
      cases i with
      | zero => rfl
      | succ i2 =>
          cases j with
          | zero => exact absurd h (by omega)
          | succ j2 => exact ih i2 j2 (Nat.le_of_succ_le_succ h)

theorem get?_replicate_of_some {α : Type} : ∀ (n j : Nat) (a x : α),
    (List.replicate n a).get? j = some x → x = a := by
  intro n
  induction n with
  | zero =>
      intro j a x h
      cases h
  | succ m ih =>
      intro j a x h
      cases j with
      | zero =>
          injection h with h
          exact h.symm
      | succ j2 => exact ih j2 a x h

/-! ## Claim C1: resolution lemmas -/

theorem get_block_blocks_congr (bc bc2 : Blockchain) (hb : bc2.blocks = bc.blocks)
    (p : BlockPtr) : bc2.get_block p = bc.get_block p := by
  unfold Blockchain.get_block
  rw [hb]

theorem resolveAll_blocks_congr (bc bc2 : Blockchain) (hb : bc2.blocks = bc.blocks) :
    ∀ l, resolveAll bc2 l = resolveAll bc l := by
  intro l
  induction l with
  | nil => rfl
  | cons p rest ih =>
      unfold resolveAll
      rw [get_block_blocks_congr bc bc2 hb, ih]

theorem resolveAll_mono (bc bc2 : Blockchain)
    (hmono : ∀ p b, bc.get_block p = some b → bc2.get_block p = some b) :
    ∀ l bs, resolveAll bc l = some bs → resolveAll bc2 l = some bs := by
  intro l
  induction l with
  | nil =>
      intro bs h
      exact h
  | cons p rest ih =>
      intro bs h
      unfold resolveAll at h ⊢
      cases hg : bc.get_block p with
      | none => rw [hg] at h; cases h
      | some b =>
          rw [hg] at h
          dsimp only at h
          rw [hmono p b hg]
          dsimp only
          cases hr : resolveAll bc rest with
          | none => rw [hr] at h; cases h
          | some bs0 =>
              rw [hr] at h
              dsimp only at h
              rw [ih bs0 hr]
              exact h

theorem resolveAll_append (bc : Blockchain) :
    ∀ (l1 l2 : List BlockPtr) (bs1 bs2 : List Block),
      resolveAll bc l1 = some bs1 → resolveAll bc l2 = some bs2 →
      resolveAll bc (l1 ++ l2) = some (bs1 ++ bs2) := by
  intro l1
  induction l1 with
  | nil =>
      intro l2 bs1 bs2 h1 h2
      injection h1 with h1
      subst h1
      simpa using h2
  | cons p rest ih =>
      intro l2 bs1 bs2 h1 h2
      unfold resolveAll at h1
      rw [List.cons_append]
      unfold resolveAll
      cases hg : bc.get_block p with
      | none => rw [hg] at h1; cases h1
      | some b =>
          rw [hg] at h1
          dsimp only at h1
          dsimp only
          cases hr : resolveAll bc rest with
          | none => rw [hr] at h1; cases h1
          | some bs0 =>
              rw [hr] at h1
              dsimp only at h1
              injection h1 with h1
              subst h1
              rw [ih l2 bs0 bs2 hr h2]
              rfl

theorem resolveAll_length (bc : Blockchain) :
    ∀ (l : List BlockPtr) (bs : List Block), resolveAll bc l = some bs →
      bs.length = l.length := by
  intro l
  induction l with
  | nil =>
      intro bs h
      injection h with h
      subst h
      rfl
  | cons p rest ih =>
      intro bs h
      unfold resolveAll at h
      cases hg : bc.get_block p with
      | none => rw [hg] at h; cases h
      | some b =>
          rw [hg] at h
          dsimp only at h
          cases hr : resolveAll bc rest with
          | none => rw [hr] at h; cases h
          | some bs0 =>
              rw [hr] at h
              dsimp only at h
              injection h with h
              subst h
              simp [ih bs0 hr]

/-- Inserting a verified block at its own depth level preserves the tree
invariants, preserves every resolution, and makes the block resolvable. -/
theorem insert_block_preserves (oc : SigOracle)
    (hinj : ∀ b1 b2 : Block, oc.blockSig b1 = true → oc.blockSig b2 = true →
      b1.hash = b2.hash → b1 = b2)
    (bc bc2 : Blockchain) (block : Block)
    (hb2 : bc2.blocks = (growTo bc.blocks (block.depth.toNat + 1)).set block.depth.toNat
      (ainsert ((growTo bc.blocks (block.depth.toNat + 1)).getD block.depth.toNat [])
        block.hash block))
    (hcons : blocksConsistent bc) (hver : storedVerified oc bc)
    (hsig : oc.blockSig block = true) (hd1 : 1 ≤ block.depth) :
    blocksConsistent bc2 ∧ storedVerified oc bc2 ∧
    (∀ p b0, bc.get_block p = some b0 → bc2.get_block p = some b0) ∧
    bc2.get_block block.ptr = some block := by
  set d := block.depth.toNat with hd
  set G := growTo bc.blocks (d + 1) with hG
  set L := G.getD d [] with hL
  set lvlNew := ainsert L block.hash block with hlvl
  have hdnn : (d : Int) = block.depth := by
    rw [hd]
    exact Int.toNat_of_nonneg (by omega)
  have hd1n : 1 ≤ d := by omega
  have hGlen : d < G.length := by
    rw [hG]
    unfold growTo
    rw [List.length_append, List.length_replicate]
    omega
  have hGget : ∀ i, i < bc.blocks.length → G.get? i = bc.blocks.get? i := by
    intro i hi
    rw [hG]
    unfold growTo
    exact List.get?_append hi
  have hGofs : ∀ i lvl, G.get? i = some lvl → bc.blocks.get? i = some lvl ∨ lvl = [] := by
    intro i lvl hget
    by_cases hi : i < bc.blocks.length
    · left
      rw [← hGget i hi]
      exact hget
    · right
      rw [hG] at hget
      unfold growTo at hget
      rw [List.get?_append_right (Nat.le_of_not_lt hi)] at hget
      exact get?_replicate_of_some _ _ _ _ hget
  have hLcase : bc.blocks.get? d = some L ∨ L = [] := by
    rw [hL]
    cases hGd : G.get? d with
    | none =>
        right
        rw [List.getD_eq_getElem?_getD, ← List.get?_eq_getElem?, hGd]
        rfl
    | some lvl0 =>
        rw [List.getD_eq_getElem?_getD, ← List.get?_eq_getElem?, hGd]
        rcases hGofs d lvl0 hGd with hold | hnil
        · left
          exact hold
        · right
          exact hnil
  have hB2get_d : bc2.blocks.get? d = some lvlNew := by
    rw [hb2]
    exact get?_set_self G d lvlNew hGlen
  have hB2get_ne : ∀ i, i ≠ d → bc2.blocks.get? i = G.get? i := by
    intro i hi
    rw [hb2]
    exact get?_set_ne G d i lvlNew (fun hh => hi hh.symm)
  refine ⟨?_, ?_, ?_, ?_⟩
  · intro d2 lvl2 hget2 p hp
    by_cases hdd : d2 = d
    · subst hdd
      rw [hB2get_d] at hget2
      injection hget2 with hget2
      subst hget2
      have hp2 : p ∈ ainsert L block.hash block := by rw [← hlvl]; exact hp
      rcases mem_ainsert _ _ _ p hp2 with hnew | hold
      · subst hnew
        exact ⟨rfl, hdnn.symm⟩
      · rcases hLcase with holdL | hnil
        · exact hcons d L holdL p hold
        · rw [hnil] at hold
          cases hold
    · rw [hB2get_ne d2 hdd] at hget2
      rcases hGofs d2 lvl2 hget2 with hold | hnil
      · exact hcons d2 lvl2 hold p hp
      · rw [hnil] at hp
        cases hp
  · intro d2 lvl2 hget2 p hp
    by_cases hdd : d2 = d
    · subst hdd
      rw [hB2get_d] at hget2
      injection hget2 with hget2
      subst hget2
      have hp2 : p ∈ ainsert L block.hash block := by rw [← hlvl]; exact hp
      rcases mem_ainsert _ _ _ p hp2 with hnew | hold
      · subst hnew
        right
        exact hsig
      · rcases hLcase with holdL | hnil
        · exact hver d L holdL p hold
        · rw [hnil] at hold
          cases hold
    · rw [hB2get_ne d2 hdd] at hget2
      rcases hGofs d2 lvl2 hget2 with hold | hnil
      · exact hver d2 lvl2 hold p hp
      · rw [hnil] at hp
        cases hp
  · intro p b0 hres
    unfold Blockchain.get_block at hres ⊢
    by_cases hneg : p.depth < 0
    · rw [if_pos hneg] at hres
      cases hres
    · rw [if_neg hneg] at hres ⊢
      cases hlv : bc.blocks.get? p.depth.toNat with
      | none => rw [hlv] at hres; cases hres
      | some lvl =>
          rw [hlv] at hres
          dsimp only at hres
          have hdlen : p.depth.toNat < bc.blocks.length := by
            by_contra hcon
            rw [List.get?_eq_none.mpr (Nat.le_of_not_lt hcon)] at hlv
            cases hlv
          by_cases hpd : p.depth.toNat = d
          · have hLlvl : L = lvl := by
              rw [hL, List.getD_eq_getElem?_getD, ← List.get?_eq_getElem?]
              rw [hGget d (by rw [← hpd]; exact hdlen)]
              rw [← hpd, hlv]
              rfl
            rw [hpd, hB2get_d]
            dsimp only
            rw [hlvl, hLlvl]
            by_cases hph : p.hash = block.hash
            · rw [hph] at hres
              have hmem := alook_mem hres
              have hco := hcons p.depth.toNat lvl hlv (block.hash, b0) hmem
              have hverb := hver p.depth.toNat lvl hlv (block.hash, b0) hmem
              have hsb0 : oc.blockSig b0 = true := by
                rcases hverb with h0 | hv
                · exact absurd h0 (by omega)
                · exact hv
              have hb0 : b0 = block := hinj b0 block hsb0 hsig hco.1
              rw [hph, alook_ainsert_self, hb0]
            · rw [alook_ainsert_ne _ _ _ _ hph]
              exact hres
          · rw [hB2get_ne _ hpd, hGget _ hdlen, hlv]
            dsimp only
            exact hres
  · have hgoal : bc2.get_block ⟨block.hash, block.depth⟩ = some block := by
      unfold Blockchain.get_block
      rw [if_neg (show ¬ (⟨block.hash, block.depth⟩ : BlockPtr).depth < 0 from by
        dsimp only
        omega)]
      rw [show (⟨block.hash, block.depth⟩ : BlockPtr).depth.toNat = d from by rw [hd]]
      rw [hB2get_d]
      dsimp only
      rw [hlvl]
      exact alook_ainsert_self _ _ _
    exact hgoal

/-- A successful `update_static_ledger` implies a nonempty best path. -/
theorem update_static_ok_nonempty (bc : Blockchain) (oc : SigOracle)
    (x : Blockchain × Res Unit) (h : bc.update_static_ledger oc = some x) :
    bc.best_path ≠ [] := by
  intro hemp
  have hnone : bc.get_static_block_ptr (bc.best_path.length : Int) = none := by
    unfold Blockchain.get_static_block_ptr
    rw [if_neg (by omega)]
    rw [hemp]
    rfl
  unfold Blockchain.update_static_ledger Blockchain.get_static_ledger_of at h
  rw [hnone] at h
  dsimp only at h
  cases h

/-- A successful `rollback_block` removes the popped block from the tree:
afterwards its pointer no longer resolves (under collision-freedom even
when an emptied level is deleted and deeper levels shift down). -/
theorem rollback_block_ok_removes (oc : SigOracle)
    (hinj : ∀ b1 b2 : Block, oc.blockSig b1 = true → oc.blockSig b2 = true →
      b1.hash = b2.hash → b1 = b2)
    (bc : Blockchain) (frm : BlockPtr) (bc2 : Blockchain)
    (hcons : blocksConsistent bc) (hver : storedVerified oc bc)
    (hshape : bestPathShape bc)
    (h : bc.rollback_block oc frm = some (bc2, .ok ())) :
    bc2.get_block frm = none := by
  unfold Blockchain.rollback_block at h
  cases hlast : bc.best_path.getLast? with
  | none => rw [hlast] at h; dsimp only at h; cases h
  | some head =>
  rw [hlast] at h
  dsimp only at h
  by_cases hne : frm ≠ head
  · rw [if_pos hne] at h
    exact absurd h (by simp)
  · rw [if_neg hne] at h
    have hfh : frm = head := not_ne_iff.mp hne
    set bcP := ({ bc with best_path := bc.best_path.dropLast } : Blockchain) with hbcP
    have hPb : bcP.blocks = bc.blocks := by rw [hbcP]
    cases hgb : bcP.get_block frm with
    | none =>
        rw [hgb] at h
        dsimp only at h
        exact absurd h (by simp)
    | some block =>
    rw [hgb] at h
    dsimp only at h
    have hgb0 : bc.get_block frm = some block := by
      rw [← get_block_blocks_congr bc bcP hPb frm]
      exact hgb
    have hbs := get_block_shape hcons hgb0
    cases hrtb : Blockchain.rollbackTxsIntoBuffer bcP.dynamic_ledger
        bcP.transaction_buffer block.depth block.transactions.reverse with
    | none => rw [hrtb] at h; dsimp only at h; cases h
    | some pr =>
    obtain ⟨l1, buf1⟩ := pr
    rw [hrtb] at h
    dsimp only at h
    cases hrr : l1.rollback_reward block.draw.signed_by
        (Blockchain.calculate_reward block) with
    | none => rw [hrr] at h; dsimp only at h; cases h
    | some l2 =>
    rw [hrr] at h
    dsimp only at h
    set bcQ := ({ bcP with dynamic_ledger := l2, transaction_buffer := buf1 } :
      Blockchain) with hbcQ
    have hQb : bcQ.blocks = bc.blocks := by rw [hbcQ, hbcP]
    have hQbp : bcQ.best_path = bc.best_path.dropLast := by rw [hbcQ, hbcP]
    by_cases hdn : block.depth < 0
    · rw [if_pos hdn] at h
      cases h
    · rw [if_neg hdn] at h
      cases hlev : bcQ.blocks.get? block.depth.toNat with
      | none => rw [hlev] at h; dsimp only at h; cases h
      | some level =>
      rw [hlev] at h
      dsimp only at h
      by_cases hac : acontains level frm.hash = true
      · rw [if_neg (not_not_intro hac)] at h
        set bcR := ({ bcQ with blocks :=
          (bcQ.blocks.set block.depth.toNat (aerase level frm.hash)) } : Blockchain)
          with hbcR
        have hRb : bcR.blocks =
            bcQ.blocks.set block.depth.toNat (aerase level frm.hash) := by
          rw [hbcR]
        have hfd : frm.depth = block.depth := hbs.2.1.symm
        have hdQlen : block.depth.toNat < bcQ.blocks.length := by
          by_contra hcon
          rw [List.get?_eq_none.mpr (Nat.le_of_not_lt hcon)] at hlev
          cases hlev
        by_cases hcond : block.depth ≥ (bcR.best_path.length : Int) ∧
            (aerase level frm.hash).length = 0
        · rw [if_pos hcond] at h
          set bcS := ({ bcR with blocks := bcR.blocks.eraseIdx block.depth.toNat } :
            Blockchain) with hbcS
          obtain ⟨hbceq, _⟩ := update_static_shape bcS oc bc2 _ h
          subst hbceq
          have hSbp : bcS.best_path = bc.best_path.dropLast := by
            rw [hbcS, hbcR, hbcQ, hbcP]
          have hSne : bc.best_path.dropLast ≠ [] := by
            have hx := update_static_ok_nonempty bcS oc _ h
            rw [hSbp] at hx
            exact hx
          have hlen2 : 2 ≤ bc.best_path.length := by
            have h1 : bc.best_path.dropLast.length = bc.best_path.length - 1 :=
              List.length_dropLast _
            have h2 : 0 < bc.best_path.dropLast.length := List.length_pos.mpr hSne
            omega
          have hheadget : bc.best_path.get? (bc.best_path.length - 1) = some head := by
            rw [List.get?_eq_getElem?, ← List.getLast?_eq_getElem?]
            exact hlast
          have hheadd : head.depth = ((bc.best_path.length - 1 : Nat) : Int) :=
            hshape.2 _ head hheadget
          have hdge1 : 1 ≤ block.depth := by
            rw [hbs.2.1, hfh, hheadd]
            omega
          have hd1n : 1 ≤ block.depth.toNat := by omega
          unfold Blockchain.get_block
          rw [if_neg (by omega)]
          have hSb : bcS.blocks =
              (bcQ.blocks.set block.depth.toNat (aerase level frm.hash)).eraseIdx
                block.depth.toNat := by
            rw [hbcS, hRb]
          rw [hfd, hSb, get?_eraseIdx_ge _ _ _ (Nat.le_refl _),
            get?_set_ne _ _ _ _ (by omega)]
          cases hlv2 : bcQ.blocks.get? (block.depth.toNat + 1) with
          | none => rfl
          | some lvl2 =>
              dsimp only
              cases hal : alook lvl2 frm.hash with
              | none => rfl
              | some b2 =>
                  exfalso
                  have hmem2 := alook_mem hal
                  rw [hQb] at hlv2
                  have hco2 := hcons _ lvl2 hlv2 (frm.hash, b2) hmem2
                  have hsb2 : oc.blockSig b2 = true := by
                    rcases hver _ lvl2 hlv2 (frm.hash, b2) hmem2 with h0 | hv
                    · omega
                    · exact hv
                  have hlevbc : bc.blocks.get? block.depth.toNat = some level := by
                    rw [← hQb]
                    exact hlev
                  have hmemb : (frm.hash, block) ∈ level := by
                    have hg2 := hgb0
                    unfold Blockchain.get_block at hg2
                    rw [if_neg (by omega), hfd, hlevbc] at hg2
                    dsimp only at hg2
                    exact alook_mem hg2
                  have hsigb : oc.blockSig block = true := by
                    rcases hver _ level hlevbc (frm.hash, block) hmemb with h0 | hv
                    · omega
                    · exact hv
                  have hbb : b2 = block := by
                    apply hinj b2 block hsb2 hsigb
                    rw [hco2.1, hbs.1]
                  have hd2 := hco2.2
                  rw [hbb] at hd2
                  rw [hbs.2.1] at hd2
                  omega
        · rw [if_neg hcond] at h
          obtain ⟨hbceq, _⟩ := update_static_shape bcR oc bc2 _ h
          subst hbceq
          unfold Blockchain.get_block
          rw [if_neg (by omega)]
          rw [hfd, hRb, get?_set_self _ _ _ hdQlen]
          dsimp only
          rw [alook_aerase, if_pos rfl]
      · rw [if_pos hac] at h
        exact absurd h (by simp)

/-- The revert loop of `rollback` can only succeed immediately: a successful
first `rollback_block` removes the very block whose parent is then looked
up, so the loop errs on any proper revert. -/
theorem rollbackUntil_ok (oc : SigOracle)
    (hinj : ∀ b1 b2 : Block, oc.blockSig b1 = true → oc.blockSig b2 = true →
      b1.hash = b2.hash → b1 = b2)
    (bc : Blockchain) (fuel : Nat) (frm common : BlockPtr) (bc2 : Blockchain)
    (hcons : blocksConsistent bc) (hver : storedVerified oc bc)
    (hshape : bestPathShape bc)
    (h : bc.rollbackUntil oc fuel frm common = some (bc2, .ok ())) :
    bc2 = bc ∧ frm = common := by
  cases fuel with
  | zero =>
      unfold Blockchain.rollbackUntil at h
      by_cases he : frm = common
      · rw [if_pos he] at h
        simp only [Option.some_inj, Prod.mk.injEq] at h
        exact ⟨h.1.symm, he⟩
      · rw [if_neg he] at h
        cases h
  | succ f =>
      unfold Blockchain.rollbackUntil at h
      by_cases he : frm = common
      · rw [if_pos he] at h
        simp only [Option.some_inj, Prod.mk.injEq] at h
        exact ⟨h.1.symm, he⟩
      · rw [if_neg he] at h
        cases hrb : bc.rollback_block oc frm with
        | none => rw [hrb] at h; cases h
        | some pr =>
            obtain ⟨bc1, r1⟩ := pr
            rw [hrb] at h
            cases r1 with
            | err e => dsimp only at h; exact absurd h (by simp)
            | ok u =>
                cases u
                dsimp only at h
                have hnb := rollback_block_ok_removes oc hinj bc frm bc1 hcons hver
                  hshape hrb
                have hpp : bc1.parentPtr frm = none := by
                  unfold Blockchain.parentPtr Blockchain.get_parent_from_ptr
                  rw [hnb]
                  rfl
                rw [hpp] at h
                dsimp only at h
                exact absurd h (by simp)

theorem MoneyEq_transfer (bc bc2 : Blockchain) (h1 : bc2.blocks = bc.blocks)
    (h2 : bc2.best_path = bc.best_path) (h3 : bc2.dynamic_ledger = bc.dynamic_ledger)
    (h4 : bc2.root_accounts = bc.root_accounts) (h : MoneyEq bc) : MoneyEq bc2 := by
  obtain ⟨bs, hbs, heq⟩ := h
  refine ⟨bs, ?_, ?_⟩
  · unfold pathBlocks at hbs ⊢
    rw [h2, resolveAll_blocks_congr bc bc2 h1]
    exact hbs
  · rw [h3, h4]
    exact heq

theorem INV_transfer (oc : SigOracle) (bc bc2 : Blockchain) (h1 : bc2.blocks = bc.blocks)
    (h2 : bc2.best_path = bc.best_path) (h3 : bc2.dynamic_ledger = bc.dynamic_ledger)
    (h4 : bc2.root_accounts = bc.root_accounts) (h : INV oc bc) : INV oc bc2 := by
  obtain ⟨hcons, hver, hshape, hnd, hmoney⟩ := h
  refine ⟨?_, ?_, ?_, ?_, MoneyEq_transfer bc bc2 h1 h2 h3 h4 hmoney⟩
  · intro d lvl hd
    rw [h1] at hd
    exact hcons d lvl hd
  · intro d lvl hd
    rw [h1] at hd
    exact hver d lvl hd
  · unfold bestPathShape at hshape ⊢
    rw [h2]
    exact hshape
  · rw [h3]
    exact hnd

/-- Head extension preserves the invariant: processing the block
transactions burns one fee each, and `reward_winner` mints exactly
`calculate_reward`, so the conservation equation extends to the appended
block. -/
theorem extend_preserves (oc : SigOracle) (bc1 : Blockchain) (b parent : Block)
    (old_head : BlockPtr) (lf : Ledger) (bc5 : Blockchain)
    (hInv1 : INV oc bc1)
    (hres1 : bc1.get_block b.ptr = some b)
    (hpar1 : bc1.get_parent b = some parent)
    (hlast : bc1.best_path.getLast? = some old_head)
    (hext : old_head = parent.ptr)
    (hpt : proccess_transactions oc bc1.dynamic_ledger b.transactions b.depth =
      some (lf, .ok ()))
    (h5bp : bc5.best_path = bc1.best_path ++ [b.ptr])
    (h5dl : bc5.dynamic_ledger =
      lf.reward_winner b.draw.signed_by (Blockchain.calculate_reward b))
    (h5bl : bc5.blocks = bc1.blocks)
    (h5ra : bc5.root_accounts = bc1.root_accounts) :
    INV oc bc5 := by
  obtain ⟨hcons, hver, hshape, hnd, hmoney⟩ := hInv1
  have hparshape := get_block_shape hcons
    (show bc1.get_block ⟨b.prev_hash, b.depth - 1⟩ = some parent from hpar1)
  have hple : parent.depth = b.depth - 1 := hparshape.2.1
  have hlen1 : 0 < bc1.best_path.length := List.length_pos.mpr hshape.1
  have hheadget : bc1.best_path.get? (bc1.best_path.length - 1) = some old_head := by
    rw [List.get?_eq_getElem?, ← List.getLast?_eq_getElem?]
    exact hlast
  have hheadd : old_head.depth = ((bc1.best_path.length - 1 : Nat) : Int) :=
    hshape.2 _ old_head hheadget
  have hbd : b.depth = (bc1.best_path.length : Int) := by
    have h1 : old_head.depth = parent.depth := by
      rw [hext]
      rfl
    rw [h1, hple] at hheadd
    omega
  obtain ⟨hmon, hndlf⟩ := proccess_transactions_money oc b.depth b.transactions
    bc1.dynamic_ledger lf hpt hnd
  obtain ⟨hrw, hndrw⟩ := total_reward_winner lf b.draw.signed_by
    (Blockchain.calculate_reward b) hndlf
  refine ⟨?_, ?_, ?_, ?_, ?_⟩
  · intro d lvl hh
    rw [h5bl] at hh
    exact hcons d lvl hh
  · intro d lvl hh
    rw [h5bl] at hh
    exact hver d lvl hh
  · constructor
    · rw [h5bp]
      intro hcon
      simpa using congrArg List.length hcon
    · intro i p hp
      rw [h5bp] at hp
      by_cases hi : i < bc1.best_path.length
      · rw [List.get?_append hi] at hp
        exact hshape.2 i p hp
      · have hi2 : i ≤ bc1.best_path.length := by
          by_contra hcon
          rw [List.get?_eq_none.mpr (by
            rw [List.length_append]
            simp
            omega)] at hp
          cases hp
        have hieq : i = bc1.best_path.length := by omega
        subst hieq
        rw [List.get?_concat_length] at hp
        injection hp with hp
        subst hp
        exact hbd
  · rw [h5dl]
    exact hndrw
  · obtain ⟨bs, hbs, heq⟩ := hmoney
    refine ⟨bs ++ [b], ?_, ?_⟩
    · unfold pathBlocks at hbs ⊢
      rw [h5bp]
      have hres5 : ∀ p b0, bc1.get_block p = some b0 → bc5.get_block p = some b0 := by
        intro p b0 hb0
        rw [get_block_blocks_congr bc1 bc5 h5bl]
        exact hb0
      have h1 : resolveAll bc5 bc1.best_path = some bs :=
        resolveAll_mono bc1 bc5 hres5 _ bs hbs
      have h2 : resolveAll bc5 [b.ptr] = some [b] := by
        unfold resolveAll
        rw [get_block_blocks_congr bc1 bc5 h5bl b.ptr, hres1]
        rfl
      exact resolveAll_append bc5 _ _ bs [b] h1 h2
    · have hlenbs : bs.length = bc1.best_path.length := resolveAll_length bc1 _ bs hbs
      have hbsne : 1 ≤ bs.length := by omega
      have hdrop : (bs ++ [b]).drop 1 = bs.drop 1 ++ [b] :=
        List.drop_append_of_le_length hbsne
      rw [hdrop, h5dl, h5ra, hrw]
      have htx : txTotal (bs.drop 1 ++ [b]) =
          txTotal (bs.drop 1) + b.transactions.length := by
        unfold txTotal
        simp
      have hrew : rewardTotal (bs.drop 1 ++ [b]) =
          rewardTotal (bs.drop 1) + Blockchain.calculate_reward b := by
        unfold rewardTotal
        simp
      rw [htx, hrew]
      have hcr : Blockchain.calculate_reward b =
          b.transactions.length * TRANSACTION_FEE + BLOCK_REWARD := rfl
      have hdist : TRANSACTION_FEE * (txTotal (bs.drop 1) + b.transactions.length) =
          TRANSACTION_FEE * txTotal (bs.drop 1) +
            TRANSACTION_FEE * b.transactions.length := by ring
      have hcomm : b.transactions.length * TRANSACTION_FEE =
          TRANSACTION_FEE * b.transactions.length := by ring
      omega

/-- The orphan-adoption and static-update tail of `add_block` preserves the
invariant, given the adoption loop does at the smaller fuel. -/
theorem orphan_tail_preserves (oc : SigOracle) (f : Nat) (now : Nat)
    (ihB : ∀ bc bs bc2, INV oc bc → add_blocks f oc now bc bs = some (bc2, .ok ()) →
      INV oc bc2 ∧ bc.best_path <+: bc2.best_path ∧
        bc2.root_accounts = bc.root_accounts)
    (bc3 : Blockchain) (bh : Nat) (bc2 : Blockchain) (hInv3 : INV oc bc3)
    (h : (match
        (match alook bc3.orphans bh with
          | some os =>
              add_blocks f oc now { bc3 with orphans := aerase bc3.orphans bh } os
          | none => some (bc3, .ok ())) with
      | none => none
      | some (bc4, .err e) => some (bc4, .err e)
      | some (bc4, .ok ()) => bc4.update_static_ledger oc) = some (bc2, .ok ())) :
    INV oc bc2 ∧ bc3.best_path <+: bc2.best_path ∧
      bc2.root_accounts = bc3.root_accounts := by
  cases horph : alook bc3.orphans bh with
  | none =>
      rw [horph] at h
      dsimp only at h
      obtain ⟨hbceq, _⟩ := update_static_shape bc3 oc bc2 _ h
      subst hbceq
      exact ⟨hInv3, List.prefix_rfl, rfl⟩
  | some os =>
      rw [horph] at h
      dsimp only at h
      cases hob : add_blocks f oc now { bc3 with orphans := aerase bc3.orphans bh } os with
      | none => rw [hob] at h; dsimp only at h; cases h
      | some pr =>
          obtain ⟨bc4, r⟩ := pr
          rw [hob] at h
          cases r with
          | err e => dsimp only at h; exact absurd h (by simp)
          | ok u =>
              cases u
              dsimp only at h
              have hInvE : INV oc ({ bc3 with orphans := aerase bc3.orphans bh } :
                  Blockchain) := INV_transfer oc bc3 _ rfl rfl rfl rfl hInv3
              obtain ⟨i4, p4, r4⟩ := ihB _ os bc4 hInvE hob
              have p4b : bc3.best_path <+: bc4.best_path := p4
              have r4b : bc4.root_accounts = bc3.root_accounts := r4
              obtain ⟨hbceq, _⟩ := update_static_shape bc4 oc bc2 _ h
              subst hbceq
              exact ⟨i4, p4b, r4b⟩

/-- The master preservation statement: every successful `add_block`,
`add_blocks`, `rollback` and `apply_path` preserves the invariant, only
ever extends the best path, and never changes the root accounts. -/
theorem step_preserves (oc : SigOracle)
    (hinj : ∀ b1 b2 : Block, oc.blockSig b1 = true → oc.blockSig b2 = true →
      b1.hash = b2.hash → b1 = b2) :
    ∀ fuel : Nat,
      (∀ now bc b bc2, INV oc bc → add_block fuel oc now bc b = some (bc2, .ok ()) →
        INV oc bc2 ∧ bc.best_path <+: bc2.best_path ∧
          bc2.root_accounts = bc.root_accounts) ∧
      (∀ now bc bs bc2, INV oc bc → add_blocks fuel oc now bc bs = some (bc2, .ok ()) →
        INV oc bc2 ∧ bc.best_path <+: bc2.best_path ∧
          bc2.root_accounts = bc.root_accounts) ∧
      (∀ now bc frm tgt bc2, INV oc bc →
        rollback fuel oc now bc frm tgt = some (bc2, .ok ()) →
        INV oc bc2 ∧ bc.best_path <+: bc2.best_path ∧
          bc2.root_accounts = bc.root_accounts) ∧
      (∀ now bc ps bc2, INV oc bc → apply_path fuel oc now bc ps = some (bc2, .ok ()) →
        INV oc bc2 ∧ bc.best_path <+: bc2.best_path ∧
          bc2.root_accounts = bc.root_accounts) := by
  intro fuel
  induction fuel with
  | zero =>
      refine ⟨?_, ?_, ?_, ?_⟩
      · intro now bc b bc2 hInv h
        rw [show add_block 0 oc now bc b = none from rfl] at h
        cases h
      · intro now bc bs bc2 hInv h
        cases bs with
        | nil =>
            rw [show add_blocks 0 oc now bc [] = some (bc, .ok ()) from rfl] at h
            simp only [Option.some_inj, Prod.mk.injEq] at h
            obtain ⟨h2, _⟩ := h
            subst h2
            exact ⟨hInv, List.prefix_rfl, rfl⟩
        | cons b rest =>
            rw [show add_blocks 0 oc now bc (b :: rest) = none from rfl] at h
            cases h
      · intro now bc frm tgt bc2 hInv h
        rw [show rollback 0 oc now bc frm tgt = none from rfl] at h
        cases h
      · intro now bc ps bc2 hInv h
        cases ps with
        | nil =>
            rw [show apply_path 0 oc now bc [] = some (bc, .ok ()) from rfl] at h
            simp only [Option.some_inj, Prod.mk.injEq] at h
            obtain ⟨h2, _⟩ := h
            subst h2
            exact ⟨hInv, List.prefix_rfl, rfl⟩
        | cons ptr rest =>
            rw [show apply_path 0 oc now bc (ptr :: rest) = none from rfl] at h
            cases h
  | succ f ih =>
      obtain ⟨ihA, ihB, ihC, ihD⟩ := ih
      refine ⟨?_, ?_, ?_, ?_⟩
      · intro now bc b bc2 hInv h
        unfold add_block at h
        dsimp only at h
        cases hcan : bc.can_block_be_added oc now b with
        | none => rw [hcan] at h; dsimp only at h; cases h
        | some rc =>
            rw [hcan] at h
            cases rc with
            | err e => dsimp only at h; exact absurd h (by simp)
            | ok u =>
                cases u
                dsimp only at h
                have hsig := can_block_be_added_sig bc oc now b hcan
                cases hpar0 : bc.get_parent b with
                | none =>
                    rw [hpar0] at h
                    dsimp only at h
                    simp only [Option.some_inj, Prod.mk.injEq] at h
                    obtain ⟨h2, _⟩ := h
                    subst h2
                    exact ⟨INV_transfer oc bc _ rfl rfl rfl rfl hInv,
                      List.prefix_rfl, rfl⟩
                | some par0 =>
                    rw [hpar0] at h
                    dsimp only at h
                    by_cases hdneg : b.depth < 0
                    · rw [if_pos hdneg] at h
                      cases h
                    · rw [if_neg hdneg] at h
                      set bc1 := ({ bc with blocks :=
                        ((growTo bc.blocks (b.depth.toNat + 1)).set b.depth.toNat
                          (ainsert ((growTo bc.blocks (b.depth.toNat + 1)).getD
                            b.depth.toNat []) b.hash b)) } : Blockchain) with hbc1
                      have hd1 : 1 ≤ b.depth := by
                        unfold Blockchain.get_parent Blockchain.get_block at hpar0
                        by_cases hx : b.depth - 1 < 0
                        · rw [if_pos hx] at hpar0
                          cases hpar0
                        · omega
                      obtain ⟨hcons1, hver1, hmono1, hres1⟩ := insert_block_preserves oc
                        hinj bc bc1 b (by rw [hbc1]) hInv.1 hInv.2.1 hsig hd1
                      have hbp1 : bc1.best_path = bc.best_path := by rw [hbc1]
                      have hdl1 : bc1.dynamic_ledger = bc.dynamic_ledger := by rw [hbc1]
                      have hra1 : bc1.root_accounts = bc.root_accounts := by rw [hbc1]
                      have hshape1 : bestPathShape bc1 := by
                        obtain ⟨hne0, hidx0⟩ := hInv.2.2.1
                        refine ⟨?_, ?_⟩
                        · rw [hbp1]
                          exact hne0
                        · intro i p hp
                          rw [hbp1] at hp
                          exact hidx0 i p hp
                      have hnd1 : (bc1.dynamic_ledger.map.map Prod.fst).Nodup := by
                        rw [hdl1]
                        exact hInv.2.2.2.1
                      have hmoney1 : MoneyEq bc1 := by
                        obtain ⟨bs, hbs, heq⟩ := hInv.2.2.2.2
                        refine ⟨bs, ?_, ?_⟩
                        · unfold pathBlocks at hbs ⊢
                          rw [hbp1]
                          exact resolveAll_mono bc bc1 hmono1 _ bs hbs
                        · rw [hdl1, hra1]
                          exact heq
                      have hInv1 : INV oc bc1 := ⟨hcons1, hver1, hshape1, hnd1, hmoney1⟩
                      cases hpar1 : bc1.get_parent b with
                      | none => rw [hpar1] at h; dsimp only at h; cases h
                      | some parent =>
                          rw [hpar1] at h
                          dsimp only at h
                          cases hlast : bc.best_path.getLast? with
                          | none => rw [hlast] at h; dsimp only at h; cases h
                          | some old_head =>
                              rw [hlast] at h
                              dsimp only at h
                              by_cases hext : old_head = parent.ptr
                              · rw [if_pos hext] at h
                                cases hpt : proccess_transactions oc bc.dynamic_ledger
                                    b.transactions b.depth with
                                | none => rw [hpt] at h; dsimp only at h; cases h
                                | some prt =>
                                    obtain ⟨lf, rt⟩ := prt
                                    rw [hpt] at h
                                    cases rt with
                                    | err e =>
                                        dsimp only at h
                                        exact absurd h (by simp)
                                    | ok ut =>
                                        cases ut
                                        dsimp only at h
                                        have hInv5 : INV oc ({ bc1 with
                                            best_path := (bc1.best_path ++ [b.ptr])
                                            dynamic_ledger := (lf.reward_winner
                                              b.draw.signed_by
                                              (Blockchain.calculate_reward b))
                                            transaction_buffer := (List.foldl sremove
                                              bc1.transaction_buffer b.transactions) } :
                                            Blockchain) :=
                                          extend_preserves oc bc1 b parent old_head lf _
                                            hInv1 hres1 hpar1 hlast hext hpt rfl rfl rfl rfl
                                        obtain ⟨iT, pT, rT⟩ := orphan_tail_preserves oc f
                                          now (fun x y z => ihB now x y z) _ b.hash bc2
                                          hInv5 h
                                        refine ⟨iT, ?_, ?_⟩
                                        · have pA : bc.best_path <+:
                                              (bc1.best_path ++ [b.ptr]) :=
                                            List.prefix_append _ _
                                          exact pA.trans pT
                                        · exact rT
                              · rw [if_neg hext] at h
                                cases hgh : bc1.get_block old_head with
                                | none => rw [hgh] at h; dsimp only at h; cases h
                                | some head_block =>
                                    rw [hgh] at h
                                    dsimp only at h
                                    by_cases hgt : blockGT b head_block = true
                                    · rw [if_pos hgt] at h
                                      cases hroll : rollback f oc now bc1 old_head
                                          b.ptr with
                                      | none => rw [hroll] at h; dsimp only at h; cases h
                                      | some prr =>
                                          obtain ⟨bc3, rr⟩ := prr
                                          rw [hroll] at h
                                          cases rr with
                                          | err e =>
                                              dsimp only at h
                                              exact absurd h (by simp)
                                          | ok ur =>
                                              cases ur
                                              dsimp only at h
                                              obtain ⟨i3, p3, r3⟩ := ihC now bc1 old_head
                                                b.ptr bc3 hInv1 hroll
                                              obtain ⟨iT, pT, rT⟩ := orphan_tail_preserves
                                                oc f now (fun x y z => ihB now x y z) bc3
                                                b.hash bc2 i3 h
                                              refine ⟨iT, ?_, ?_⟩
                                              · have p3b : bc.best_path <+:
                                                    bc3.best_path := p3
                                                exact p3b.trans pT
                                              · have r3b : bc3.root_accounts =
                                                    bc.root_accounts := r3
                                                exact rT.trans r3b
                                    · rw [if_neg hgt] at h
                                      dsimp only at h
                                      obtain ⟨iT, pT, rT⟩ := orphan_tail_preserves oc f
                                        now (fun x y z => ihB now x y z) bc1 b.hash bc2
                                        hInv1 h
                                      refine ⟨iT, ?_, ?_⟩
                                      · exact pT
                                      · exact rT
      · intro now bc bs bc2 hInv h
        cases bs with
        | nil =>
            rw [show add_blocks (f + 1) oc now bc [] = some (bc, .ok ()) from rfl] at h
            simp only [Option.some_inj, Prod.mk.injEq] at h
            obtain ⟨h2, _⟩ := h
            subst h2
            exact ⟨hInv, List.prefix_rfl, rfl⟩
        | cons b rest =>
            unfold add_blocks at h
            dsimp only at h
            cases hab : add_block f oc now bc b with
            | none => rw [hab] at h; dsimp only at h; cases h
            | some pr =>
                obtain ⟨bc3, r⟩ := pr
                rw [hab] at h
                cases r with
                | err e => dsimp only at h; exact absurd h (by simp)
                | ok u =>
                    cases u
                    dsimp only at h
                    obtain ⟨i1, p1, r1⟩ := ihA now bc b bc3 hInv hab
                    obtain ⟨i2, p2, r2⟩ := ihB now bc3 rest bc2 i1 h
                    exact ⟨i2, p1.trans p2, r2.trans r1⟩
      · intro now bc frm tgt bc2 hInv h
        unfold rollback at h
        cases hfca : bc.find_common_ancestor (f + 1) frm tgt with
        | none => rw [hfca] at h; dsimp only at h; exact absurd h (by simp)
        | some common =>
            rw [hfca] at h
            dsimp only at h
            cases hru : bc.rollbackUntil oc (f + 1) frm common with
            | none => rw [hru] at h; dsimp only at h; cases h
            | some pru =>
                obtain ⟨bc3, r⟩ := pru
                rw [hru] at h
                cases r with
                | err e => dsimp only at h; exact absurd h (by simp)
                | ok u =>
                    cases u
                    dsimp only at h
                    obtain ⟨hbc3, hfrmc⟩ := rollbackUntil_ok oc hinj bc (f + 1) frm
                      common bc3 hInv.1 hInv.2.1 hInv.2.2.1 hru
                    rw [hbc3] at h
                    cases hcp : bc.collectPath (f + 1) tgt common with
                    | none => rw [hcp] at h; dsimp only at h; cases h
                    | some rcp =>
                        rw [hcp] at h
                        cases rcp with
                        | err e => dsimp only at h; exact absurd h (by simp)
                        | ok path =>
                            dsimp only at h
                            exact ihD now bc path.reverse bc2 hInv h
      · intro now bc ps bc2 hInv h
        cases ps with
        | nil =>
            rw [show apply_path (f + 1) oc now bc [] = some (bc, .ok ()) from rfl] at h
            simp only [Option.some_inj, Prod.mk.injEq] at h
            obtain ⟨h2, _⟩ := h
            subst h2
            exact ⟨hInv, List.prefix_rfl, rfl⟩
        | cons ptr rest =>
            unfold apply_path at h
            dsimp only at h
            cases hg : bc.get_block ptr with
            | none => rw [hg] at h; dsimp only at h; exact absurd h (by simp)
            | some b =>
                rw [hg] at h
                dsimp only at h
                cases hab : add_block f oc now bc b with
                | none => rw [hab] at h; dsimp only at h; cases h
                | some pr =>
                    obtain ⟨bc3, r⟩ := pr
                    rw [hab] at h
                    cases r with
                    | err e => dsimp only at h; exact absurd h (by simp)
                    | ok u =>
                        cases u
                        dsimp only at h
                        obtain ⟨i1, p1, r1⟩ := ihA now bc b bc3 hInv hab
                        obtain ⟨i2, p2, r2⟩ := ihD now bc3 rest bc2 i1 h
                        exact ⟨i2, p1.trans p2, r2.trans r1⟩

/-- The root grants of `Blockchain::start` mint `ROOT_AMOUNT` per account. -/
theorem start_ledger_total :
    ∀ (accts : List Nat) (l : Ledger), (l.map.map Prod.fst).Nodup →
      ((accts.foldl (fun l accnt => l.reward_winner accnt ROOT_AMOUNT)
          l).get_total_money_in_ledger =
        l.get_total_money_in_ledger + accts.length * ROOT_AMOUNT) ∧
      (((accts.foldl (fun l accnt => l.reward_winner accnt ROOT_AMOUNT)
          l).map.map Prod.fst).Nodup) := by
  intro accts
  induction accts with
  | nil =>
      intro l hnd
      exact ⟨by simp, hnd⟩
  | cons a rest ih =>
      intro l hnd
      obtain ⟨e1, n1⟩ := total_reward_winner l a ROOT_AMOUNT hnd
      obtain ⟨e2, n2⟩ := ih (l.reward_winner a ROOT_AMOUNT) n1
      refine ⟨?_, n2⟩
      simp only [List.foldl_cons, List.length_cons]
      rw [e2, e1]
      ring

/-- The start state satisfies the invariant for a depth 0 genesis block. -/
theorem start_INV (oc : SigOracle) (roots : List Nat) (g : Block)
    (hdep : g.depth = 0) : INV oc (Blockchain.start roots g) := by
  have hbl : (Blockchain.start roots g).blocks = [[(g.hash, g)]] := rfl
  have hbp : (Blockchain.start roots g).best_path = [⟨g.hash, 0⟩] := rfl
  have hra : (Blockchain.start roots g).root_accounts = roots := rfl
  have hdl : (Blockchain.start roots g).dynamic_ledger =
      roots.foldl (fun l accnt => l.reward_winner accnt ROOT_AMOUNT)
        (Ledger.new roots) := rfl
  have hnew0 : ((Ledger.new roots).map.map Prod.fst).Nodup := by
    rw [show (Ledger.new roots).map = [] from rfl]
    exact List.nodup_nil
  obtain ⟨etot, endup⟩ := start_ledger_total roots (Ledger.new roots) hnew0
  have hgb : (Blockchain.start roots g).get_block ⟨g.hash, 0⟩ = some g := by
    show alook [(g.hash, g)] g.hash = some g
    rw [show alook [(g.hash, g)] g.hash =
      if g.hash = g.hash then some g else alook ([] : List (Nat × Block)) g.hash
      from rfl, if_pos rfl]
  refine ⟨?_, ?_, ?_, ?_, ?_⟩
  · intro d lvl hh p hp
    rw [hbl] at hh
    cases d with
    | zero =>
        injection hh with hh
        subst hh
        simp only [List.mem_singleton] at hp
        subst hp
        refine ⟨rfl, ?_⟩
        rw [hdep]
        rfl
    | succ n => cases hh
  · intro d lvl hh p hp
    rw [hbl] at hh
    cases d with
    | zero => exact Or.inl rfl
    | succ n => cases hh
  · constructor
    · rw [hbp]
      simp
    · intro i p hp
      rw [hbp] at hp
      cases i with
      | zero =>
          injection hp with hp
          subst hp
          rfl
      | succ n => cases hp
  · rw [hdl]
    exact endup
  · refine ⟨[g], ?_, ?_⟩
    · unfold pathBlocks resolveAll
      rw [hbp]
      dsimp only
      rw [hgb]
      rfl
    · rw [hdl, hra, etot]
      rw [show (Ledger.new roots).get_total_money_in_ledger = 0 from rfl]
      simp [txTotal, rewardTotal]

/-- A successful `add_transaction` only grows the mempool. -/
theorem add_transaction_ok_INV (oc : SigOracle) (bc bc2 : Blockchain)
    (t : Transaction) (h : bc.add_transaction oc t = (bc2, .ok ()))
    (hInv : INV oc bc) :
    INV oc bc2 ∧ bc2.dynamic_ledger = bc.dynamic_ledger ∧
      bc2.best_path = bc.best_path ∧ bc2.root_accounts = bc.root_accounts := by
  unfold Blockchain.add_transaction at h
  by_cases hs : ¬ oc.txSig t = true
  · rw [if_pos hs] at h
    exact absurd h (by simp)
  · rw [if_neg hs] at h
    cases hv : bc.dynamic_ledger.is_transaction_valid oc t with
    | err e =>
        rw [hv] at h
        dsimp only at h
        exact absurd h (by simp)
    | ok u =>
        cases u
        rw [hv] at h
        dsimp only at h
        have h2 : ({ bc with transaction_buffer := sinsert bc.transaction_buffer t } :
            Blockchain) = bc2 := congrArg Prod.fst h
        subst h2
        exact ⟨INV_transfer oc bc _ rfl rfl rfl rfl hInv, rfl, rfl, rfl⟩

/-- Every reachable state satisfies the invariant. -/
theorem reach_INV (oc : SigOracle)
    (hinj : ∀ b1 b2 : Block, oc.blockSig b1 = true → oc.blockSig b2 = true →
      b1.hash = b2.hash → b1 = b2) :
    ∀ bc, Reach oc bc → INV oc bc := by
  intro bc h
  induction h with
  | start roots g hdep => exact start_INV oc roots g hdep
  | tx t hr hstep ih => exact (add_transaction_ok_INV oc _ _ t hstep ih).1
  | blk fuel now b hr hstep ih =>
      exact ((step_preserves oc hinj fuel).1 now _ b _ ih hstep).1

/-- C1 (confirmed): in every state reachable from `start` by successful
operations under a collision-free signature oracle, the dynamic-ledger
money plus `TRANSACTION_FEE` times the number of transactions in the
non-genesis best-path blocks equals `len(root_accounts) * ROOT_AMOUNT`
plus the sum of `calculate_reward` over those blocks; consequently a
further successful `add_block` never decreases the total and a successful
`add_transaction` leaves it unchanged. -/
theorem c1_conservation_of_money (oc : SigOracle)
    (hinj : ∀ b1 b2 : Block, oc.blockSig b1 = true → oc.blockSig b2 = true →
      b1.hash = b2.hash → b1 = b2)
    (bc : Blockchain) (hreach : Reach oc bc) :
    (∃ bs, pathBlocks bc = some bs ∧
      bc.dynamic_ledger.get_total_money_in_ledger +
          TRANSACTION_FEE * txTotal (bs.drop 1) =
        bc.root_accounts.length * ROOT_AMOUNT + rewardTotal (bs.drop 1)) ∧
    (∀ fuel now b bc2, add_block fuel oc now bc b = some (bc2, .ok ()) →
      bc.dynamic_ledger.get_total_money_in_ledger ≤
        bc2.dynamic_ledger.get_total_money_in_ledger) ∧
    (∀ t bc2, bc.add_transaction oc t = (bc2, .ok ()) →
      bc2.dynamic_ledger.get_total_money_in_ledger =
        bc.dynamic_ledger.get_total_money_in_ledger) := by
  have hInv := reach_INV oc hinj bc hreach
  refine ⟨hInv.2.2.2.2, ?_, ?_⟩
  · intro fuel now b bc2 hstep
    obtain ⟨hInv2, hpre, hroots⟩ :=
      (step_preserves oc hinj fuel).1 now bc b bc2 hInv hstep
    obtain ⟨bs, hbs, heq⟩ := hInv.2.2.2.2
    obtain ⟨bs2, hbs2, heq2⟩ := hInv2.2.2.2.2
    have hl1 : bs.length = bc.best_path.length := resolveAll_length bc _ bs hbs
    have hl2 : bs2.length = bc2.best_path.length := resolveAll_length bc2 _ bs2 hbs2
    have hlen : bc.best_path.length ≤ bc2.best_path.length := hpre.length_le
    have e1 := rewardTotal_eq (bs.drop 1)
    have e2 := rewardTotal_eq (bs2.drop 1)
    have hld1 : (bs.drop 1).length = bs.length - 1 := by simp
    have hld2 : (bs2.drop 1).length = bs2.length - 1 := by simp
    rw [hroots] at heq2
    simp only [TRANSACTION_FEE, BLOCK_REWARD, ROOT_AMOUNT] at e1 e2 heq heq2
    omega
  · intro t bc2 hstep
    have h := (add_transaction_ok_INV oc bc bc2 t hstep hInv).2.1
    rw [h]

/-- The fixture oracle only ever accepts the two fixture blocks, whose
hashes differ, so it satisfies the collision-freedom hypothesis. -/
theorem sigInj_collision_free : ∀ b1 b2 : Block, sigInj.blockSig b1 = true →
    sigInj.blockSig b2 = true → b1.hash = b2.hash → b1 = b2 := by
  intro b1 b2 h1 h2 hh
  simp only [sigInj, Bool.or_eq_true, decide_eq_true_eq] at h1 h2
  rcases h1 with h1 | h1 <;> rcases h2 with h2 | h2 <;> subst h1 <;> subst h2 <;>
    first
    | rfl
    | exact absurd hh (by decide)

/-- Witness for `c1_conservation_of_money` at the two-block fixture chain:
balances hold `ROOT_AMOUNT + BLOCK_REWARD` and the equation closes. -/
theorem c1_witness :
    ∃ bs, pathBlocks chain1 = some bs ∧
      chain1.dynamic_ledger.get_total_money_in_ledger +
          TRANSACTION_FEE * txTotal (bs.drop 1) =
        chain1.root_accounts.length * ROOT_AMOUNT + rewardTotal (bs.drop 1) :=
  (c1_conservation_of_money sigInj sigInj_collision_free chain1
    (Reach.blk 4 1 extB (Reach.start [1] genesisB rfl) (by decide))).1

end Lasagna
